import Mathlib

/-!
Verification of the Codeforces tag-statistics engine (`cf.js`).

This file shallowly embeds the computational core of the repository —
problem index, submission classifier, tag aggregator, fail-band builder,
difficulty-bucket builder, recommendation scorer, intersection engine and
snapshot codec/cache — as executable Lean definitions, and proves or
refutes the specification claims about them.

Modelling conventions:
* JS `Map` objects whose iteration order matters are embedded as
  association lists (`List (κ × α)`); maps that are only ever read through
  point lookups are embedded as functions `κ → Option α` or total functions
  with the all-false default (a missing `perProblemStatus` entry and the
  all-false record are indistinguishable to every consumer, which reads the
  fields through `?.` / `!!`).
* JS numbers standing for ratings are `Nat` (`0`/`null` falsy cases handled
  explicitly); timestamps are `Int` milliseconds; floats (`solvePercent`,
  `recommendScore`) are `ℚ` — they are only ever carried verbatim by the
  claims under study.
* The write-only `solvedDiffs` set of a tag stat (it is populated in
  `aggregate` and never read anywhere) is omitted from the embedding, and
  the `solvedProblems` set (redundant with `status.solved`, unused by any
  claim) is likewise omitted.
-/

set_option maxRecDepth 4000

namespace CfTag

/-- Association-list lookup: first value stored under a key
(the read behaviour of a JS `Map`/object). -/
def lookupA {α : Type} : List (String × α) → String → Option α
  | [], _ => none
  | (k, v) :: rest, q => if q = k then some v else lookupA rest q

/-- Association-list lookup with `Nat` keys (difficulty-bucket maps). -/
def lookupN {α : Type} : List (Nat × α) → Nat → Option α
  | [], _ => none
  | (k, v) :: rest, q => if q = k then some v else lookupN rest q

/-- JS `Map.set` on an association list: overwrite in place if the key is
present, else append (insertion order of a JS `Map`). -/
def mapSet {α : Type} : List (String × α) → String → α → List (String × α)
  | [], k, v => [(k, v)]
  | (k', v') :: rest, k, v =>
    if k' = k then (k', v) :: rest else (k', v') :: mapSet rest k v

/-- JS `Set.add` on an insertion-ordered duplicate-free list. -/
def setAdd {α : Type} [DecidableEq α] (l : List α) (x : α) : List α :=
  if x ∈ l then l else l ++ [x]

/-! ## Data model (§3 of the spec, shapes of `cf.js`) -/

/-- One record of `problemset.problems` / the `problem` field of a
submission (`contestId`, `problemsetName`, `index`, `tags`, `rating`,
`name`, each possibly absent). A JS `rating` that is present but `0` is
modelled as `some 0`; absence/null as `none`. -/
structure CatProblem where
  contestId : Option String
  problemsetName : Option String
  index : String
  tags : Option (List String)
  rating : Option Nat
  name : Option String
  deriving DecidableEq

/-- A submission record: `{problem, verdict, contestId}` (`cf.js` §4.2). -/
structure Submission where
  problem : Option CatProblem
  verdict : String
  contestId : Option String
  deriving DecidableEq

/-- The `problemset.problems` payload. -/
structure Problemset where
  problems : List CatProblem
  deriving DecidableEq

/-- Per-problem immutable metadata stored by the problem index
(`perProblemMeta` values in `aggregate`). -/
structure Meta where
  tags : List String
  rating : Option Nat
  name : String
  deriving DecidableEq

/-- Per-problem origin flags (`perProblemOrigin` values). -/
structure Origin where
  contest : Bool
  practice : Bool
  deriving DecidableEq

instance : Inhabited Origin := ⟨⟨false, false⟩⟩

/-- Per-problem status flags (`perProblemStatus` values). -/
structure Status where
  solved : Bool
  failedContest : Bool
  failedPractice : Bool
  deriving DecidableEq

instance : Inhabited Status := ⟨⟨false, false, false⟩⟩

/-- One per-tag statistics record (the objects created by `ensure` in
`aggregate`, including the fields filled in later by the post-pass,
`computeRecommendationScores` and `computeFailedDifficultyBand`). The
write-only `solvedDiffs` set is omitted (never read in the source). -/
structure TagStat where
  tag : String
  solved : Nat
  solvedContest : Nat
  solvedPractice : Nat
  totalAvailable : Nat
  maxSolved : Option Nat
  solvePercent : ℚ
  nextTargetDifficulty : Option Nat
  recommendScore : ℚ
  minFailedDifficulty : Option Nat
  maxFailedDifficulty : Option Nat
  failSpan : Option Int
  deriving DecidableEq

/-- One difficulty bucket (`{solvedContest, solvedPractice, failedContest,
unsolved, total}`). -/
structure Bucket where
  solvedContest : Nat
  solvedPractice : Nat
  failedContest : Nat
  unsolved : Nat
  total : Nat
  deriving DecidableEq

/-! ## Configuration constants (`cf.js` lines 18-24) -/

def CACHE_TTL_HOURS : Int := 6
def SNAPSHOT_SCHEMA_VERSION : Nat := 2
def RECOMMEND_WEIGHT_COVERAGE_GAP : ℚ := 0.55
def RECOMMEND_WEIGHT_NEXT_DIFF : ℚ := 0.30
def RECOMMEND_WEIGHT_SOLVED : ℚ := 0.15

/-! ## Problem index (`cf.js` `probKey`, lines 234-244 of `aggregate`) -/

/-- Canonical problem key (`probKey` in `cf.js`): `PS-{index}` when both
`contestId` and `problemsetName` are absent, else
`{contestId || problemsetName}-{index}`. -/
def probKey (p : CatProblem) : String :=
  match p.contestId with
  | some c => c ++ "-" ++ p.index
  | none =>
    match p.problemsetName with
    | some s => s ++ "-" ++ p.index
    | none => "PS-" ++ p.index

/-- The `name` fallback label used by the problem index:
`${p.contestId || p.problemsetName || "PS"}-${p.index}`. -/
def fallbackName (p : CatProblem) : String :=
  ((p.contestId.orElse fun _ => p.problemsetName).getD "PS") ++ "-" ++ p.index

/-- The metadata record stored by the problem index for one catalog entry:
`{tags: p.tags || [], rating: p.rating || null, name: p.name || fallback}`
(`cf.js` lines 238-242). A JS rating of `0` is falsy, hence normalised to
`null`. -/
def metaOf (p : CatProblem) : Meta :=
  { tags := p.tags.getD []
    rating := match p.rating with
      | some r => if r = 0 then none else some r
      | none => none
    name := p.name.getD (fallbackName p) }

/-- The problem index (`perProblemMeta`): a `Map` built by iterating the
catalog and calling `Map.set` for each entry (`cf.js` lines 236-244). -/
def buildMetaList (catalog : List CatProblem) : List (String × Meta) :=
  catalog.foldl (fun m p => mapSet m (probKey p) (metaOf p)) []

/-! ## Submission classifier (`cf.js` lines 246-278) -/

/-- The fixed closed set of qualifying failure verdicts
(`contestFailVerdicts`, `cf.js` lines 249-253). -/
def contestFailVerdicts : List String :=
  ["WRONG_ANSWER", "TIME_LIMIT_EXCEEDED", "RUNTIME_ERROR",
   "MEMORY_LIMIT_EXCEEDED", "IDLENESS_LIMIT_EXCEEDED", "REJECTED",
   "FAILED", "PRESENTATION_ERROR", "CHALLENGED", "PARTIAL",
   "COMPILATION_ERROR", "CRASHED", "SKIPPED"]

/-- Classifier state: `perProblemOrigin` and `perProblemStatus`, embedded
as total functions whose default values are the records created on first
touch (`{contest:false, practice:false}`, `{solved:false, failedContest:
false, failedPractice:false}`). -/
structure ClassState where
  origin : String → Origin
  status : String → Status

/-- The initial (empty-map) classifier state. -/
def classInit : ClassState :=
  { origin := fun _ => default, status := fun _ => default }

/-- Point update of a per-key map. -/
def updAt {α : Type} (f : String → α) (k : String) (v : α) : String → α :=
  fun q => if q = k then v else f q

/-- One iteration of the classification fold (`cf.js` lines 255-278):
skip submissions without a problem or whose problem is absent from the
index; `OK` sets `solved` and the matching origin flag; a qualifying
failure verdict sets the matching failure flag only if the problem is not
yet solved. -/
def classifyStep (idx : String → Bool) (st : ClassState) (sub : Submission) :
    ClassState :=
  match sub.problem with
  | none => st
  | some pr =>
    let key := probKey pr
    if idx key then
      let origin := st.origin key
      let status := st.status key
      let isContest := sub.contestId.isSome
      if sub.verdict = "OK" then
        { origin := updAt st.origin key
            (if isContest then { origin with contest := true }
             else { origin with practice := true })
          status := updAt st.status key { status with solved := true } }
      else
        if !status.solved && contestFailVerdicts.contains sub.verdict then
          let status' :=
            if isContest then { status with failedContest := true }
            else { status with failedPractice := true }
          { st with status := updAt st.status key status' }
        else st
    else st

/-- The whole classification fold over the submission list. -/
def classify (idx : String → Bool) (subs : List Submission) : ClassState :=
  subs.foldl (classifyStep idx) classInit

/-! ## Tag aggregator (`cf.js` lines 280-347)

The single JS loop over `perProblemMeta.entries()` updates three
independent maps (`tagStats`, `tagRatingsAll`, `perTagProblemList`); the
loop body never reads any of them, so the loop is embedded as three
independent double folds (outer: index entries in insertion order; inner:
the entry's tag list in order). Each map is embedded as a function
`String → Option α` (a JS `Map` read through `get`), with a separate
first-touch order list (`tagOrderOf`) recording the `Map` insertion
order. -/

/-- The fresh per-tag record created by `ensure` (`cf.js` lines 284-305,
minus the write-only `solvedDiffs`). -/
def statInit (t : String) : TagStat :=
  { tag := t, solved := 0, solvedContest := 0, solvedPractice := 0
    totalAvailable := 0, maxSolved := none, solvePercent := 0
    nextTargetDifficulty := none, recommendScore := 0
    minFailedDifficulty := none, maxFailedDifficulty := none
    failSpan := none }

instance : Inhabited TagStat := ⟨statInit ""⟩

/-- Truthiness of a JS rating value (`if (rating)` with `rating :
number|null`): present and non-zero. -/
def isRated (r : Option Nat) : Bool :=
  match r with
  | some v => v != 0
  | none => false

/-- The numeric value of a rated rating (only used under `isRated`). -/
def ratingVal (r : Option Nat) : Nat := r.getD 0

/-- The per-(entry, tag-occurrence) update of a tag's statistics record
(`cf.js` lines 313-331, the `tagStats` part): bump `totalAvailable`; if
the problem is solved, bump `solved`, bump `solvedContest` when
`origin.contest` else `solvedPractice` when `origin.practice`, and update
`maxSolved` when the problem is rated. -/
def applyEntry (cls : ClassState) (key : String) (m : Meta) (s : TagStat) :
    TagStat :=
  let s := { s with totalAvailable := s.totalAvailable + 1 }
  if (cls.status key).solved then
    let s := { s with solved := s.solved + 1 }
    let s :=
      if (cls.origin key).contest then
        { s with solvedContest := s.solvedContest + 1 }
      else if (cls.origin key).practice then
        { s with solvedPractice := s.solvedPractice + 1 }
      else s
    if isRated m.rating then
      let r := ratingVal m.rating
      match s.maxSolved with
      | none => { s with maxSolved := some r }
      | some mx => if r > mx then { s with maxSolved := some r } else s
    else s
  else s

/-- Get-or-create update of a function-embedded JS `Map` at one key. -/
def mapUpd {α : Type} (f : String → Option α) (t : String) (dflt : α)
    (g : α → α) : String → Option α :=
  fun q => if q = t then some (g ((f t).getD dflt)) else f q

/-- The `tagStats` map after the aggregation loop. -/
def tagStatsFun (cls : ClassState) (entries : List (String × Meta)) :
    String → Option TagStat :=
  entries.foldl
    (fun f km =>
      km.2.tags.foldl
        (fun f' t => mapUpd f' t (statInit t) (applyEntry cls km.1 km.2)) f)
    (fun _ => none)

/-- The `tagRatingsAll` map after the aggregation loop: per tag, the
insertion-ordered set of ratings of its rated problems (`cf.js` lines
318-322). -/
def tagRatingsFun (entries : List (String × Meta)) :
    String → Option (List Nat) :=
  entries.foldl
    (fun f km =>
      km.2.tags.foldl
        (fun f' t =>
          if isRated km.2.rating then
            mapUpd f' t [] (fun l => setAdd l (ratingVal km.2.rating))
          else f') f)
    (fun _ => none)

/-- The `perTagProblemList` map after the aggregation loop: per tag, the
insertion-ordered set of its problem keys (`cf.js` lines 316-317). -/
def perTagProblemListFun (entries : List (String × Meta)) :
    String → Option (List String) :=
  entries.foldl
    (fun f km =>
      km.2.tags.foldl (fun f' t => mapUpd f' t [] (fun l => setAdd l km.1)) f)
    (fun _ => none)

/-- First-touch insertion order of the per-tag maps (the iteration order
of `tagStats.values()` / `perTagProblemList.entries()`). -/
def tagOrderOf (entries : List (String × Meta)) : List String :=
  entries.foldl (fun acc km => km.2.tags.foldl setAdd acc) []

/-- Ascending insertion sort on naturals, the extensional behaviour of
`[...allR].sort((a,b)=>a-b)` on a duplicate-free array. -/
def insertAsc (x : Nat) : List Nat → List Nat
  | [] => [x]
  | y :: ys => if x ≤ y then x :: y :: ys else y :: insertAsc x ys

/-- Ascending numeric sort. -/
def sortAsc (l : List Nat) : List Nat := l.foldr insertAsc []

/-- The per-tag post-pass of `aggregate` (`cf.js` lines 334-345):
`solvePercent = solved/totalAvailable` (0 when empty), and
`nextTargetDifficulty` = the first rating, in ascending order of the
tag's rated-ratings set, strictly greater than `maxSolved`. -/
def postStat (tra : String → Option (List Nat)) (s : TagStat) : TagStat :=
  let s := { s with
    solvePercent :=
      if s.totalAvailable ≠ 0 then (s.solved : ℚ) / s.totalAvailable else 0 }
  match s.maxSolved with
  | none => s
  | some mx =>
    match tra s.tag with
    | none => s
    | some allR =>
      match (sortAsc allR).find? (fun r => mx < r) with
      | none => s
      | some r => { s with nextTargetDifficulty := some r }

/-- Stable descending insertion by `solved` (the extensional behaviour of
the stable JS sort `(a,b) => b.solved - a.solved`). -/
def insertDesc (x : TagStat) : List TagStat → List TagStat
  | [] => [x]
  | y :: ys => if y.solved > x.solved then y :: insertDesc x ys
               else x :: y :: ys

/-- `[...tagStats.values()].sort((a,b)=> b.solved - a.solved)`. -/
def sortBySolvedDesc (l : List TagStat) : List TagStat :=
  l.foldr insertDesc []

/-- The aggregation result (`cf.js` lines 349-357), minus the redundant
`solvedProblems` set (it is exactly the keys whose status is solved, and
no claim consumes it). -/
structure Agg where
  metaList : List (String × Meta)
  status : String → Status
  origin : String → Origin
  tagOrder : List String
  tagArray : List TagStat
  perTagProblemList : String → Option (List String)
  tagRatingsAll : String → Option (List Nat)

/-- `aggregate(submissions, problemset)` (`cf.js` lines 233-358). -/
def aggregate (submissions : List Submission) (problemset : Problemset) :
    Agg :=
  let metaList := buildMetaList problemset.problems
  let idx : String → Bool := fun k => (lookupA metaList k).isSome
  let cls := classify idx submissions
  let base := tagStatsFun cls metaList
  let tra := tagRatingsFun metaList
  let order := tagOrderOf metaList
  { metaList := metaList
    status := cls.status
    origin := cls.origin
    tagOrder := order
    tagArray :=
      sortBySolvedDesc
        (order.map fun t => postStat tra ((base t).getD (statInit t)))
    perTagProblemList := perTagProblemListFun metaList
    tagRatingsAll := tra }

/-! ## Recommendation scorer (`cf.js` lines 426-443) -/

/-- `computeRecommendationScores(tags, tagRatingsAll)`: assigns
`recommendScore` to every stat using the two global normalizers. The
`tagRatingsAll` parameter is kept for fidelity with the source signature;
the source body never reads it. In-place mutation of the stat objects is
embedded as a map over the list. -/
def computeRecommendationScores (tags : List TagStat)
    (_tagRatingsAll : String → Option (List Nat)) : List TagStat :=
  if tags.length = 0 then tags
  else
    let maxSolved : Nat := tags.foldl (fun a t => max a t.solved) 1
    let maxMaxDiff : Nat := tags.foldl (fun a t => max a (t.maxSolved.getD 0)) 1
    tags.map fun t =>
      let coverageGap : ℚ := 1 - t.solvePercent
      let diffDelta : ℚ :=
        match t.nextTargetDifficulty with
        | some n => (n : ℚ) - (t.maxSolved.getD 0 : Nat)
        | none => 500
      let normNext : ℚ := 1 / (1 + diffDelta / 300)
      let normSolved : ℚ := (t.solved : ℚ) / (maxSolved : ℚ)
      let normMax : ℚ := ((t.maxSolved.getD 0 : Nat) : ℚ) / (maxMaxDiff : ℚ)
      { t with recommendScore :=
          RECOMMEND_WEIGHT_COVERAGE_GAP * coverageGap +
          RECOMMEND_WEIGHT_NEXT_DIFF * normNext +
          RECOMMEND_WEIGHT_SOLVED * (1/2 * normSolved + 1/2 * normMax) }

/-! ## Fail-band builder (`cf.js` lines 360-379) -/

/-- One step of the fail-band scan over a tag's problem set: track the
running min/max rating over problems that are unsolved, have
`failedContest`, and are rated. A key absent from the problem index is
skipped (`if (!meta || !status) continue`; a missing status record and
the all-false default are indistinguishable here since both fail the
`status.failedContest` test). -/
def bandStep (metaL : List (String × Meta)) (status : String → Status)
    (p : Option Nat × Option Nat) (key : String) : Option Nat × Option Nat :=
  match lookupA metaL key with
  | none => p
  | some m =>
    let st := status key
    if !st.solved && st.failedContest && isRated m.rating then
      let r := ratingVal m.rating
      (some (match p.1 with | none => r | some mn => min mn r),
       some (match p.2 with | none => r | some mx => max mx r))
    else p

/-- `computeFailedDifficultyBand(agg)`: per stat of `tagArray`, scan its
problem set and fill `minFailedDifficulty`, `maxFailedDifficulty` and
`failSpan = max - min` (null when no qualifying problem exists). -/
def computeFailedDifficultyBand (a : Agg) : Agg :=
  { a with tagArray := a.tagArray.map fun stat =>
      match a.perTagProblemList stat.tag with
      | none => stat
      | some keys =>
        let mm := keys.foldl (bandStep a.metaList a.status) (none, none)
        { stat with
          minFailedDifficulty := mm.1
          maxFailedDifficulty := mm.2
          failSpan :=
            match mm.1, mm.2 with
            | some mn, some mx => some ((mx : Int) - (mn : Int))
            | _, _ => none } }

/-! ## Difficulty-bucket builders (`cf.js` lines 381-417 and 963-994)

Both builders partition a key set with the identical loop body; it is
factored here as `bucketStep`/`buildBuckets`, shared by
`buildAllTagDifficultyBuckets` and `buildIntersectionBuckets`, over the
read-only view of an aggregate (live or rehydrated). -/

/-- The read-only per-problem/per-tag view consumed by the bucket and
intersection builders (identical for a live `aggregate` result and a
`renderFromSnapshot` result). -/
structure AggView where
  meta : String → Option Meta
  status : String → Status
  origin : String → Origin
  perTagProblemList : String → Option (List String)

/-- The view of a live aggregate. -/
def Agg.view (a : Agg) : AggView :=
  { meta := lookupA a.metaList
    status := a.status
    origin := a.origin
    perTagProblemList := a.perTagProblemList }

/-- The bucket key of a problem: its rating, `0` standing for unrated
(`meta.rating || 0`). -/
def ratingKey (r : Option Nat) : Nat := r.getD 0

/-- Update the bucket at key `r` of a difficulty map (get-or-create the
zero bucket, then apply one problem's contribution). -/
def bucketUpd (dm : List (Nat × Bucket)) (r : Nat) (g : Bucket → Bucket) :
    List (Nat × Bucket) :=
  match dm with
  | [] => [(r, g ⟨0, 0, 0, 0, 0⟩)]
  | (k, b) :: rest =>
    if k = r then (k, g b) :: rest else (k, b) :: bucketUpd rest r g

/-- One problem's contribution to its bucket: `total++`, then exactly one
of the four category counters (precedence: solved-contest > solved-practice
> failed-contest > unsolved). -/
def bucketContrib (st : Status) (og : Origin) (b : Bucket) : Bucket :=
  let b := { b with total := b.total + 1 }
  if st.solved then
    if og.contest then { b with solvedContest := b.solvedContest + 1 }
    else { b with solvedPractice := b.solvedPractice + 1 }
  else
    if st.failedContest then { b with failedContest := b.failedContest + 1 }
    else { b with unsolved := b.unsolved + 1 }

/-- One iteration of the shared bucket loop (`cf.js` lines 396-413 =
lines 975-992): skip keys without metadata, else contribute to the bucket
at the problem's rating key. -/
def bucketStep (v : AggView) (dm : List (Nat × Bucket)) (key : String) :
    List (Nat × Bucket) :=
  match v.meta key with
  | none => dm
  | some m => bucketUpd dm (ratingKey m.rating) (bucketContrib (v.status key) (v.origin key))

/-- The shared bucket builder over an explicit key list. -/
def buildBuckets (v : AggView) (keys : List String) : List (Nat × Bucket) :=
  keys.foldl (bucketStep v) []

/-- `buildAllTagDifficultyBuckets(agg)` (`cf.js` lines 381-417): per stat
of `tagArray` (skipping tags without a problem set), the buckets of its
problem set. -/
def buildAllTagDifficultyBuckets (a : Agg) :
    List (String × List (Nat × Bucket)) :=
  a.tagArray.foldl
    (fun acc stat =>
      match a.perTagProblemList stat.tag with
      | none => acc
      | some keys => mapSet acc stat.tag (buildBuckets a.view keys))
    []

/-! ## Intersection engine (`cf.js` lines 963-994) -/

/-- The intersection loop of `buildIntersectionBuckets`: `inter` starts
null; a tag without a problem set resets it to the empty set and breaks;
the first tag's set is copied; later tags filter it in place; an empty
intermediate intersection breaks. -/
def interFold (v : AggView) :
    Option (List String) → List String → Option (List String)
  | inter, [] => inter
  | inter, t :: rest =>
    match v.perTagProblemList t with
    | none => some []
    | some s =>
      let i := match inter with
        | none => s
        | some i0 => i0.filter fun k => s.contains k
      if i.isEmpty then some i else interFold v (some i) rest

/-- `buildIntersectionBuckets(tags, agg)`: the shared bucket builder over
the intersection of the tags' problem sets; an absent set or an empty
(intermediate) intersection yields the empty bucket map. -/
def buildIntersectionBuckets (tags : List String) (v : AggView) :
    List (Nat × Bucket) :=
  match interFold v none tags with
  | none => []
  | some i => if i.isEmpty then [] else buildBuckets v i

/-! ## Snapshot codec (`cf.js` lines 163-230, 446-500, 1009-1021) -/

/-- The per-problem record of a snapshot
(`problems[key]` in `buildSnapshot`). -/
structure SnapProblem where
  rating : Option Nat
  name : String
  tags : List String
  solved : Bool
  contest : Bool
  practice : Bool
  failedContest : Bool
  failedPractice : Bool
  deriving DecidableEq

/-- The per-tag record of a snapshot (`tagsObj[tag]` in `buildSnapshot`). -/
structure SnapTag where
  totalAvailable : Nat
  solved : Nat
  solvedContest : Nat
  solvedPractice : Nat
  solvePercent : ℚ
  maxSolved : Option Nat
  nextTargetDifficulty : Option Nat
  minFailedDifficulty : Option Nat
  maxFailedDifficulty : Option Nat
  failSpan : Option Int
  recommendScore : ℚ
  difficultyBuckets : List (Nat × Bucket)
  deriving DecidableEq

/-- The versioned snapshot artifact (§3 / §6 of the spec). `generatedAt`
is an epoch-millisecond timestamp (the ISO string of the source parses
back to exactly this value in `loadSnapshot`). `tagProblemKeys` is
attached by `fetchAndBuildSnapshot` right after `buildSnapshot` returns
(`cf.js` lines 151-154). -/
structure Snapshot where
  schemaVersion : Nat
  generatedAt : Int
  handle : String
  userStatusCount : Nat
  problemsetCount : Nat
  problems : List (String × SnapProblem)
  tags : List (String × SnapTag)
  tagProblemKeys : List (String × List String)
  cacheTTLHours : Int
  deriving DecidableEq

/-- The serialized form of one indexed problem (`cf.js` lines 174-187):
origin flags are stored masked by `solved`, failure flags masked by
`!solved`. -/
def serializeProb (m : Meta) (st : Status) (og : Origin) : SnapProblem :=
  { rating := m.rating
    name := m.name
    tags := m.tags
    solved := st.solved
    contest := og.contest && st.solved
    practice := og.practice && st.solved
    failedContest := st.failedContest && !st.solved
    failedPractice := st.failedPractice && !st.solved }

/-- The serialized form of one tag stat (`cf.js` lines 190-216), paired
with its difficulty buckets (`tagDifficultyBuckets.get(stat.tag) || new
Map()`). -/
def serializeTagStat (buckets : List (String × List (Nat × Bucket)))
    (stat : TagStat) : String × SnapTag :=
  (stat.tag,
   { totalAvailable := stat.totalAvailable
     solved := stat.solved
     solvedContest := stat.solvedContest
     solvedPractice := stat.solvedPractice
     solvePercent := stat.solvePercent
     maxSolved := stat.maxSolved
     nextTargetDifficulty := stat.nextTargetDifficulty
     minFailedDifficulty := stat.minFailedDifficulty
     maxFailedDifficulty := stat.maxFailedDifficulty
     failSpan := stat.failSpan
     recommendScore := stat.recommendScore
     difficultyBuckets := (lookupA buckets stat.tag).getD [] })

/-- `buildSnapshot({handle, submissions, problemset, agg,
tagDifficultyBuckets})` (`cf.js` lines 163-230). `generatedAt` (the wall
clock) is an explicit parameter. `tagProblemKeys` is empty at this point;
`fetchAndBuildSnapshot` fills it. -/
def buildSnapshot (handle : String) (now : Int)
    (submissions : List Submission) (problemset : Problemset) (agg : Agg)
    (tagDifficultyBuckets : List (String × List (Nat × Bucket))) :
    Snapshot :=
  { schemaVersion := SNAPSHOT_SCHEMA_VERSION
    generatedAt := now
    handle := handle
    userStatusCount := submissions.length
    problemsetCount := problemset.problems.length
    problems := agg.metaList.map fun km =>
      (km.1, serializeProb km.2 (agg.status km.1) (agg.origin km.1))
    tags := agg.tagArray.map (serializeTagStat tagDifficultyBuckets)
    tagProblemKeys := []
    cacheTTLHours := CACHE_TTL_HOURS }

/-- The computation pipeline of `fetchAndBuildSnapshot` after both fetches
succeed (`cf.js` lines 137-155): aggregate, score, fail-band, buckets,
snapshot, then attach `tagProblemKeys` (the per-tag problem sets in their
`Map` insertion order, i.e. tag first-touch order). -/
def fetchPipeline (handle : String) (now : Int)
    (submissions : List Submission) (problemset : Problemset) :
    Agg × List (String × List (Nat × Bucket)) × Snapshot :=
  let agg0 := aggregate submissions problemset
  let agg1 :=
    { agg0 with tagArray :=
        computeRecommendationScores agg0.tagArray agg0.tagRatingsAll }
  let agg := computeFailedDifficultyBand agg1
  let buckets := buildAllTagDifficultyBuckets agg
  let snap := buildSnapshot handle now submissions problemset agg buckets
  (agg, buckets,
   { snap with tagProblemKeys :=
       agg.tagOrder.map fun t => (t, (agg.perTagProblemList t).getD []) })

/-- JS `new Set(arr)`: insertion-ordered de-duplication. -/
def dedupList (l : List String) : List String := l.foldl setAdd []

/-- The in-memory shapes rebuilt by `renderFromSnapshot` (`cf.js` lines
446-500), minus the redundant `solvedProblems` set (exactly the keys with
`solved`, unused by any claim) and the always-empty `tagRatingsAll`. -/
structure Rehydrated where
  meta : String → Option Meta
  status : String → Status
  origin : String → Origin
  tagArray : List TagStat
  perTagProblemList : String → Option (List String)

/-- The tag stat pushed onto `tagArray` by `renderFromSnapshot` for one
snapshot tag entry. -/
def rehydrateTagStat (t : String) (o : SnapTag) : TagStat :=
  { tag := t
    totalAvailable := o.totalAvailable
    solved := o.solved
    solvedContest := o.solvedContest
    solvedPractice := o.solvedPractice
    solvePercent := o.solvePercent
    maxSolved := o.maxSolved
    nextTargetDifficulty := o.nextTargetDifficulty
    minFailedDifficulty := o.minFailedDifficulty
    maxFailedDifficulty := o.maxFailedDifficulty
    failSpan := o.failSpan
    recommendScore := o.recommendScore }

/-- `renderFromSnapshot(snapshot)`, the rehydration part (`cf.js` lines
446-495; the DOM injection that follows is out of scope). -/
def renderFromSnapshot (snap : Snapshot) : Rehydrated :=
  { meta := fun k =>
      (lookupA snap.problems k).map fun p =>
        { tags := p.tags, rating := p.rating, name := p.name }
    status := fun k =>
      match lookupA snap.problems k with
      | some p => ⟨p.solved, p.failedContest, p.failedPractice⟩
      | none => default
    origin := fun k =>
      match lookupA snap.problems k with
      | some p => ⟨p.contest, p.practice⟩
      | none => default
    tagArray := snap.tags.map fun to' => rehydrateTagStat to'.1 to'.2
    perTagProblemList := fun t =>
      (lookupA snap.tagProblemKeys t).map dedupList }

/-- The view of a rehydrated aggregate (what the intersection engine and
graph code read from it). -/
def Rehydrated.view (r : Rehydrated) : AggView :=
  { meta := r.meta
    status := r.status
    origin := r.origin
    perTagProblemList := r.perTagProblemList }

/-- `rebuildDiffMapFromSnapshot(bucketsObj)` (`cf.js` lines 1009-1021):
entry-wise reconstruction of a difficulty map from its serialized form
(the string/integer key conversion round-trips to the identity on the
`Nat`-keyed embedding). -/
def rebuildDiffMapFromSnapshot (bucketsObj : List (Nat × Bucket)) :
    List (Nat × Bucket) :=
  bucketsObj.map fun db =>
    (db.1,
     { solvedContest := db.2.solvedContest
       solvedPractice := db.2.solvedPractice
       failedContest := db.2.failedContest
       unsolved := db.2.unsolved
       total := db.2.total })

/-! ## Cache read (`cf.js` lines 110-120) -/

/-- `loadSnapshot(key)` (`cf.js` lines 110-120). The stored string and its
JSON parse are modelled as `Option (Option Snapshot)`: `none` = no value
under the key, `some none` = a stored string that fails to parse (the
`catch` path), `some (some s)` = a parsed snapshot. Misses and parse
failures all return `none`; the function is total (never throws). -/
def loadSnapshot (stored : Option (Option Snapshot)) (now : Int) :
    Option Snapshot :=
  match stored with
  | none => none
  | some none => none
  | some (some obj) =>
    if obj.schemaVersion ≠ SNAPSHOT_SCHEMA_VERSION then none
    else if now - obj.generatedAt > CACHE_TTL_HOURS * 3600 * 1000 then none
    else some obj

/-! ## Association-list and set-list lemmas -/

theorem lookupA_map_val {α β : Type} (l : List (String × α))
    (f : String → α → β) (q : String) :
    lookupA (l.map fun km => (km.1, f km.1 km.2)) q =
      (lookupA l q).map (f q) := by
  induction l with
  | nil => rfl
  | cons km rest ih =>
    by_cases h : q = km.1 <;> simp [lookupA, h, ih]

theorem lookupA_some_mem {α : Type} {l : List (String × α)} {q : String}
    {v : α} (h : lookupA l q = some v) : (q, v) ∈ l := by
  induction l with
  | nil => simp [lookupA] at h
  | cons km rest ih =>
    by_cases hq : q = km.1
    · subst hq
      simp [lookupA] at h
      subst h
      exact List.mem_cons_self _ _
    · simp [lookupA, hq] at h
      exact List.mem_cons_of_mem _ (ih h)

theorem lookupA_eq_none {α : Type} {l : List (String × α)} {q : String}
    (h : q ∉ l.map Prod.fst) : lookupA l q = none := by
  induction l with
  | nil => rfl
  | cons km rest ih =>
    simp only [List.map_cons, List.mem_cons] at h
    push_neg at h
    simp [lookupA, h.1, ih h.2]

theorem mem_lookupA {α : Type} {l : List (String × α)} {q : String} {v : α}
    (hnd : (l.map Prod.fst).Nodup) (h : (q, v) ∈ l) :
    lookupA l q = some v := by
  induction l with
  | nil => simp at h
  | cons km rest ih =>
    simp only [List.map_cons, List.nodup_cons] at hnd
    rcases List.mem_cons.mp h with h | h
    · subst h
      simp [lookupA]
    · have hq : q ≠ km.1 := by
        intro hq
        exact hnd.1 (hq ▸ List.mem_map_of_mem Prod.fst h)
      simp [lookupA, hq, ih hnd.2 h]

theorem lookupA_mapSet {α : Type} (l : List (String × α)) (k : String)
    (v : α) (q : String) :
    lookupA (mapSet l k v) q = if q = k then some v else lookupA l q := by
  induction l with
  | nil => simp [mapSet, lookupA]
  | cons km rest ih =>
    obtain ⟨k', v'⟩ := km
    by_cases hk : k' = k
    · subst hk
      by_cases hq : q = k' <;> simp [mapSet, lookupA, hq]
    · by_cases hq : q = k'
      · subst hq
        have hqk : ¬ q = k := fun h => hk h
        simp [mapSet, hk, lookupA, hqk]
      · simp [mapSet, hk, lookupA, hq, ih]

theorem mem_mapSet {α : Type} {l : List (String × α)} {k : String} {v : α}
    {e : String × α} (h : e ∈ mapSet l k v) : e ∈ l ∨ e.2 = v := by
  induction l with
  | nil =>
    simp [mapSet] at h
    subst h
    exact Or.inr rfl
  | cons km rest ih =>
    obtain ⟨k', v'⟩ := km
    by_cases hk : k' = k
    · simp only [mapSet, if_pos hk] at h
      rcases List.mem_cons.mp h with h | h
      · subst h; exact Or.inr rfl
      · exact Or.inl (List.mem_cons_of_mem _ h)
    · simp only [mapSet, if_neg hk] at h
      rcases List.mem_cons.mp h with h | h
      · subst h; exact Or.inl (List.mem_cons_self _ _)
      · rcases ih h with h' | h'
        · exact Or.inl (List.mem_cons_of_mem _ h')
        · exact Or.inr h'

theorem mapSet_keys {α : Type} (l : List (String × α)) (k : String) (v : α) :
    (mapSet l k v).map Prod.fst =
      if k ∈ l.map Prod.fst then l.map Prod.fst else l.map Prod.fst ++ [k] := by
  induction l with
  | nil => simp [mapSet]
  | cons km rest ih =>
    obtain ⟨k', v'⟩ := km
    by_cases hk : k' = k
    · subst hk
      simp [mapSet]
    · have hkk : ¬ k = k' := fun h => hk h.symm
      simp only [mapSet, if_neg hk, List.map_cons, List.mem_cons, hkk,
        false_or, ih]
      by_cases hmem : k ∈ rest.map Prod.fst <;> simp [hmem]

theorem mapSet_keys_nodup {α : Type} {l : List (String × α)} (k : String)
    (v : α) (hnd : (l.map Prod.fst).Nodup) :
    ((mapSet l k v).map Prod.fst).Nodup := by
  rw [mapSet_keys]
  by_cases hmem : k ∈ l.map Prod.fst
  · simpa [hmem] using hnd
  · rw [if_neg hmem]
    refine List.Nodup.append hnd (List.nodup_singleton k) ?_
    intro a ha hax
    simp only [List.mem_singleton] at hax
    subst hax
    exact hmem ha

theorem buildMetaList_keys_nodup (catalog : List CatProblem) :
    ((buildMetaList catalog).map Prod.fst).Nodup := by
  suffices h : ∀ (acc : List (String × Meta)), (acc.map Prod.fst).Nodup →
      ((catalog.foldl (fun m p => mapSet m (probKey p) (metaOf p)) acc).map
        Prod.fst).Nodup by
    exact h [] (by simp)
  induction catalog with
  | nil => intro acc hacc; exact hacc
  | cons p rest ih =>
    intro acc hacc
    exact ih _ (mapSet_keys_nodup _ _ hacc)

theorem buildMetaList_mem_val (catalog : List CatProblem) :
    ∀ km ∈ buildMetaList catalog, ∃ p ∈ catalog, km.2 = metaOf p := by
  suffices h : ∀ (l : List CatProblem) (acc : List (String × Meta)),
      l.Sublist catalog →
      (∀ km ∈ acc, ∃ p ∈ catalog, km.2 = metaOf p) →
      ∀ km ∈ l.foldl (fun m p => mapSet m (probKey p) (metaOf p)) acc,
        ∃ p ∈ catalog, km.2 = metaOf p by
    exact h catalog [] (List.Sublist.refl _) (by simp)
  intro l
  induction l with
  | nil => intro acc _ hacc km hkm; exact hacc km hkm
  | cons p rest ih =>
    intro acc hsub hacc km hkm
    refine ih _ ((List.Sublist.cons p (List.Sublist.refl rest)).trans hsub) ?_ km hkm
    intro km' hkm'
    rcases mem_mapSet hkm' with h | h
    · exact hacc km' h
    · exact ⟨p, hsub.mem (List.mem_cons_self _ _), h⟩

theorem mem_setAdd {α : Type} [DecidableEq α] (l : List α) (x y : α) :
    y ∈ setAdd l x ↔ y ∈ l ∨ y = x := by
  by_cases h : x ∈ l
  · simp only [setAdd, if_pos h]
    constructor
    · exact Or.inl
    · rintro (hy | rfl)
      · exact hy
      · exact h
  · simp [setAdd, if_neg h]

theorem setAdd_nodup {α : Type} [DecidableEq α] {l : List α} (x : α)
    (h : l.Nodup) : (setAdd l x).Nodup := by
  by_cases hx : x ∈ l
  · simpa [setAdd, hx] using h
  · rw [setAdd, if_neg hx]
    refine List.Nodup.append h (List.nodup_singleton x) ?_
    intro a ha hax
    simp only [List.mem_singleton] at hax
    subst hax
    exact hx ha

theorem setAdd_not_mem {α : Type} [DecidableEq α] {l : List α} {x : α}
    (h : x ∉ l) : setAdd l x = l ++ [x] := by
  simp [setAdd, h]

theorem setAdd_idem {α : Type} [DecidableEq α] (l : List α) (x : α) :
    setAdd (setAdd l x) x = setAdd l x := by
  have h : x ∈ setAdd l x := (mem_setAdd l x x).mpr (Or.inr rfl)
  show (if x ∈ setAdd l x then setAdd l x else setAdd l x ++ [x]) = setAdd l x
  rw [if_pos h]

theorem foldl_setAdd_mem {α : Type} [DecidableEq α] (l : List α)
    (acc : List α) (y : α) :
    y ∈ l.foldl setAdd acc ↔ y ∈ acc ∨ y ∈ l := by
  induction l generalizing acc with
  | nil => simp
  | cons x rest ih =>
    rw [List.foldl_cons, ih]
    simp [mem_setAdd]
    tauto

theorem foldl_setAdd_nodup {α : Type} [DecidableEq α] (l : List α)
    {acc : List α} (h : acc.Nodup) : (l.foldl setAdd acc).Nodup := by
  induction l generalizing acc with
  | nil => exact h
  | cons x rest ih => exact ih (setAdd_nodup x h)

/-! ## Classifier characterizations -/

/-- Whether a submission is an accepted, indexed submission of problem
`k`. -/
def isOkFor (idx : String → Bool) (k : String) (sub : Submission) : Bool :=
  match sub.problem with
  | some pr =>
    idx (probKey pr) && decide (probKey pr = k) && decide (sub.verdict = "OK")
  | none => false

/-- Whether a submission is an indexed, qualifying-failure, contest
submission of problem `k`. -/
def isFailCFor (idx : String → Bool) (k : String) (sub : Submission) : Bool :=
  match sub.problem with
  | some pr =>
    idx (probKey pr) && decide (probKey pr = k) &&
      contestFailVerdicts.contains sub.verdict && sub.contestId.isSome
  | none => false

/-- Whether a submission is an indexed, qualifying-failure, practice
submission of problem `k`. -/
def isFailPFor (idx : String → Bool) (k : String) (sub : Submission) : Bool :=
  match sub.problem with
  | some pr =>
    idx (probKey pr) && decide (probKey pr = k) &&
      contestFailVerdicts.contains sub.verdict && !sub.contestId.isSome
  | none => false

theorem classifyStep_solved (idx : String → Bool) (st : ClassState)
    (sub : Submission) (k : String) :
    ((classifyStep idx st sub).status k).solved =
      ((st.status k).solved || isOkFor idx k sub) := by
  cases hp : sub.problem with
  | none => simp [classifyStep, isOkFor, hp]
  | some pr =>
    simp only [classifyStep, isOkFor, hp]
    by_cases hidx : idx (probKey pr)
    · by_cases hv : sub.verdict = "OK"
      · by_cases hk : probKey pr = k
        · subst hk
          simp [hidx, hv, updAt]
        · have : ¬ k = probKey pr := fun h => hk h.symm
          simp [hidx, hv, hk, updAt, this]
      · by_cases hs : (st.status (probKey pr)).solved
        · simp [hidx, hv, hs]
        · by_cases hmem : sub.verdict ∈ contestFailVerdicts
          · by_cases hk : probKey pr = k
            · subst hk
              by_cases hc : sub.contestId.isSome <;>
                simp [hidx, hv, hs, hmem, hc, updAt]
            · have : ¬ k = probKey pr := fun h => hk h.symm
              by_cases hc : sub.contestId.isSome <;>
                simp [hidx, hv, hs, hmem, hc, hk, updAt, this]
          · simp [hidx, hv, hs, hmem]
    · simp [hidx]

theorem classifyStep_origin (idx : String → Bool) (st : ClassState)
    (sub : Submission) (k : String) :
    (classifyStep idx st sub).origin k =
      ⟨(st.origin k).contest || (isOkFor idx k sub && sub.contestId.isSome),
       (st.origin k).practice ||
         (isOkFor idx k sub && !sub.contestId.isSome)⟩ := by
  cases hp : sub.problem with
  | none => simp [classifyStep, isOkFor, hp]
  | some pr =>
    simp only [classifyStep, isOkFor, hp]
    by_cases hidx : idx (probKey pr)
    · by_cases hv : sub.verdict = "OK"
      · by_cases hk : probKey pr = k
        · subst hk
          by_cases hc : sub.contestId.isSome <;>
            simp [hidx, hv, hc, updAt]
        · have : ¬ k = probKey pr := fun h => hk h.symm
          by_cases hc : sub.contestId.isSome <;>
            simp [hidx, hv, hk, hc, updAt, this]
      · by_cases hs : (st.status (probKey pr)).solved
        · simp [hidx, hv, hs]
        · by_cases hmem : sub.verdict ∈ contestFailVerdicts
          · simp [hidx, hv, hs, hmem]
          · simp [hidx, hv, hs, hmem]
    · simp [hidx]

theorem classifyStep_failed (idx : String → Bool) (st : ClassState)
    (sub : Submission) (k : String) (hok : isOkFor idx k sub = false) :
    ((classifyStep idx st sub).status k).failedContest =
      ((st.status k).failedContest ||
        (!(st.status k).solved && isFailCFor idx k sub)) ∧
    ((classifyStep idx st sub).status k).failedPractice =
      ((st.status k).failedPractice ||
        (!(st.status k).solved && isFailPFor idx k sub)) := by
  cases hp : sub.problem with
  | none => simp [classifyStep, isFailCFor, isFailPFor, hp]
  | some pr =>
    simp only [classifyStep, isFailCFor, isFailPFor, hp]
    simp only [isOkFor, hp] at hok
    by_cases hidx : idx (probKey pr)
    · by_cases hk : probKey pr = k
      · subst hk
        by_cases hv : sub.verdict = "OK"
        · simp [hidx, hv] at hok
        · by_cases hs : (st.status (probKey pr)).solved
          · simp [hv, hs, hidx]
          · by_cases hmem : sub.verdict ∈ contestFailVerdicts
            · by_cases hc : sub.contestId.isSome <;>
                simp [hv, hs, hmem, hc, hidx, updAt]
            · simp [hv, hs, hmem, hidx]
      · have hkk : ¬ k = probKey pr := fun h => hk h.symm
        by_cases hv : sub.verdict = "OK"
        · by_cases hc : sub.contestId.isSome <;>
            simp [hidx, hv, hk, hc, updAt, hkk]
        · by_cases hs : (st.status (probKey pr)).solved
          · simp [hidx, hv, hs, hk]
          · by_cases hmem : sub.verdict ∈ contestFailVerdicts
            · by_cases hc : sub.contestId.isSome <;>
                simp [hidx, hv, hs, hmem, hk, hc, updAt, hkk]
            · simp [hidx, hv, hs, hmem, hk]
    · simp [hidx]

theorem classify_fold_solved (idx : String → Bool) (subs : List Submission)
    (st : ClassState) (k : String) :
    ((subs.foldl (classifyStep idx) st).status k).solved =
      ((st.status k).solved || subs.any (isOkFor idx k)) := by
  induction subs generalizing st with
  | nil => simp
  | cons sub rest ih =>
    rw [List.foldl_cons, ih, classifyStep_solved]
    simp [Bool.or_assoc]

theorem classify_fold_origin (idx : String → Bool) (subs : List Submission)
    (st : ClassState) (k : String) :
    (subs.foldl (classifyStep idx) st).origin k =
      ⟨(st.origin k).contest ||
         subs.any (fun s => isOkFor idx k s && s.contestId.isSome),
       (st.origin k).practice ||
         subs.any (fun s => isOkFor idx k s && !s.contestId.isSome)⟩ := by
  induction subs generalizing st with
  | nil => simp
  | cons sub rest ih =>
    rw [List.foldl_cons, ih, classifyStep_origin]
    simp [Bool.or_assoc]

theorem classify_fold_failed (idx : String → Bool) (subs : List Submission)
    (st : ClassState) (k : String)
    (hns : (st.status k).solved = false)
    (hno : subs.any (isOkFor idx k) = false) :
    ((subs.foldl (classifyStep idx) st).status k).failedContest =
      ((st.status k).failedContest || subs.any (isFailCFor idx k)) ∧
    ((subs.foldl (classifyStep idx) st).status k).failedPractice =
      ((st.status k).failedPractice || subs.any (isFailPFor idx k)) := by
  induction subs generalizing st with
  | nil => simp
  | cons sub rest ih =>
    simp only [List.any_cons, Bool.or_eq_false_iff] at hno
    have hstep := classifyStep_failed idx st sub k hno.1
    have hsolved : (((classifyStep idx st sub).status k).solved) = false := by
      rw [classifyStep_solved, hns, hno.1]
      simp
    obtain ⟨h1, h2⟩ := ih (classifyStep idx st sub) hsolved hno.2
    rw [List.foldl_cons]
    constructor
    · rw [h1, hstep.1, hns, List.any_cons]
      cases (st.status k).failedContest <;> simp [Bool.or_assoc]
    · rw [h2, hstep.2, hns, List.any_cons]
      cases (st.status k).failedPractice <;> simp [Bool.or_assoc]

theorem classifyStep_not_indexed (idx : String → Bool) (st : ClassState)
    (sub : Submission) (k : String) (h : idx k = false) :
    (classifyStep idx st sub).status k = st.status k ∧
    (classifyStep idx st sub).origin k = st.origin k := by
  cases hp : sub.problem with
  | none => simp [classifyStep, hp]
  | some pr =>
    simp only [classifyStep, hp]
    by_cases hidx : idx (probKey pr)
    · have hk : ¬ k = probKey pr := by
        intro hk
        rw [hk, hidx] at h
        exact Bool.noConfusion h
      by_cases hv : sub.verdict = "OK"
      · simp [hidx, hv, updAt, hk]
      · by_cases hs : (st.status (probKey pr)).solved
        · simp [hidx, hv, hs]
        · by_cases hmem : sub.verdict ∈ contestFailVerdicts
          · simp [hidx, hv, hs, hmem, updAt, hk]
          · simp [hidx, hv, hs, hmem]
    · simp [hidx]

theorem classify_not_indexed (idx : String → Bool) (subs : List Submission)
    (k : String) (h : idx k = false) :
    (classify idx subs).status k = default ∧
    (classify idx subs).origin k = default := by
  suffices hgen : ∀ st : ClassState,
      (subs.foldl (classifyStep idx) st).status k = st.status k ∧
      (subs.foldl (classifyStep idx) st).origin k = st.origin k by
    exact hgen classInit
  induction subs with
  | nil => intro st; exact ⟨rfl, rfl⟩
  | cons sub rest ih =>
    intro st
    obtain ⟨h1, h2⟩ := classifyStep_not_indexed idx st sub k h
    obtain ⟨h3, h4⟩ := ih (classifyStep idx st sub)
    exact ⟨h3.trans h1, h4.trans h2⟩

theorem classifyStep_solved_frozen (idx : String → Bool) (st : ClassState)
    (sub : Submission) (k : String) (h : (st.status k).solved = true) :
    (classifyStep idx st sub).status k = st.status k := by
  cases hp : sub.problem with
  | none => simp [classifyStep, hp]
  | some pr =>
    simp only [classifyStep, hp]
    by_cases hidx : idx (probKey pr)
    · by_cases hv : sub.verdict = "OK"
      · by_cases hk : probKey pr = k
        · subst hk
          simp only [hidx, if_true, hv, if_pos rfl, updAt, if_pos rfl]
          cases hst : st.status (probKey pr) with
          | mk s fc fp =>
            rw [hst] at h
            simp at h
            simp [h]
        · have : ¬ k = probKey pr := fun hkk => hk hkk.symm
          simp [hidx, hv, updAt, this]
      · by_cases hk : probKey pr = k
        · subst hk
          simp [hidx, hv, h]
        · have hkk : ¬ k = probKey pr := fun hkk => hk hkk.symm
          by_cases hs : (st.status (probKey pr)).solved
          · simp [hidx, hv, hs]
          · by_cases hmem : sub.verdict ∈ contestFailVerdicts
            · simp [hidx, hv, hs, hmem, updAt, hkk]
            · simp [hidx, hv, hs, hmem]
    · simp [hidx]

theorem classify_fold_solved_frozen (idx : String → Bool)
    (subs : List Submission) (st : ClassState) (k : String)
    (h : (st.status k).solved = true) :
    (subs.foldl (classifyStep idx) st).status k = st.status k := by
  induction subs generalizing st with
  | nil => rfl
  | cons sub rest ih =>
    rw [List.foldl_cons]
    have h1 := classifyStep_solved_frozen idx st sub k h
    rw [ih (classifyStep idx st sub) (by rw [h1]; exact h), h1]

theorem classify_origin_imp_solved (idx : String → Bool)
    (subs : List Submission) (k : String) :
    (((classify idx subs).origin k).contest = true →
      ((classify idx subs).status k).solved = true) ∧
    (((classify idx subs).origin k).practice = true →
      ((classify idx subs).status k).solved = true) := by
  rw [classify, classify_fold_origin, classify_fold_solved]
  constructor
  · intro h
    simp only [classInit, Bool.false_or] at h ⊢
    rcases List.any_eq_true.mp h with ⟨s, hs, hp⟩
    exact List.any_eq_true.mpr ⟨s, hs, by
      exact (Bool.and_elim_left hp)⟩
  · intro h
    simp only [classInit, Bool.false_or] at h ⊢
    rcases List.any_eq_true.mp h with ⟨s, hs, hp⟩
    exact List.any_eq_true.mpr ⟨s, hs, by
      exact (Bool.and_elim_left hp)⟩

theorem any_perm {α : Type} {l₁ l₂ : List α} (h : l₁.Perm l₂)
    (p : α → Bool) : l₁.any p = l₂.any p := by
  rw [Bool.eq_iff_iff, List.any_eq_true, List.any_eq_true]
  constructor <;> rintro ⟨x, hx, hp⟩
  · exact ⟨x, h.mem_iff.mp hx, hp⟩
  · exact ⟨x, h.mem_iff.mpr hx, hp⟩

/-! ## Inner-fold evaluation lemmas for the per-tag maps -/

theorem foldl_mapUpd_not_mem {α : Type} (g : α → α) (d : String → α)
    (tags : List String) (f : String → Option α) (t : String)
    (h : t ∉ tags) :
    (tags.foldl (fun f' x => mapUpd f' x (d x) g) f) t = f t := by
  induction tags generalizing f with
  | nil => rfl
  | cons x rest ih =>
    simp only [List.mem_cons] at h
    push_neg at h
    rw [List.foldl_cons, ih _ h.2]
    simp [mapUpd, h.1]

theorem foldl_mapUpd_nodup_eval {α : Type} (g : α → α) (d : String → α)
    (tags : List String) (f : String → Option α) (t : String)
    (hnd : tags.Nodup) (h : t ∈ tags) :
    (tags.foldl (fun f' x => mapUpd f' x (d x) g) f) t =
      some (g ((f t).getD (d t))) := by
  induction tags generalizing f with
  | nil => simp at h
  | cons x rest ih =>
    rw [List.nodup_cons] at hnd
    rw [List.foldl_cons]
    rcases List.mem_cons.mp h with rfl | hmem
    · rw [foldl_mapUpd_not_mem g d rest _ t hnd.1]
      simp [mapUpd]
    · have hne : t ≠ x := by
        rintro rfl
        exact hnd.1 hmem
      rw [ih _ hnd.2 hmem]
      simp [mapUpd, hne]

theorem foldl_mapUpd_idem_eval {α : Type} (g : α → α) (d : String → α)
    (tags : List String) (f : String → Option α) (t : String)
    (hg : ∀ a, g (g a) = g a) (h : t ∈ tags) :
    (tags.foldl (fun f' x => mapUpd f' x (d x) g) f) t =
      some (g ((f t).getD (d t))) := by
  induction tags generalizing f with
  | nil => simp at h
  | cons x rest ih =>
    rw [List.foldl_cons]
    by_cases hmem : t ∈ rest
    · rw [ih _ hmem]
      by_cases hx : t = x
      · subst hx
        simp [mapUpd, hg]
      · simp [mapUpd, hx]
    · rcases List.mem_cons.mp h with rfl | h'
      · rw [foldl_mapUpd_not_mem g d rest _ t hmem]
        simp [mapUpd]
      · exact absurd h' hmem

theorem foldl_mapUpd_isSome {α : Type} (g : α → α) (d : String → α)
    (tags : List String) (f : String → Option α) (t : String) :
    ((tags.foldl (fun f' x => mapUpd f' x (d x) g) f) t).isSome = true ↔
      (t ∈ tags ∨ (f t).isSome = true) := by
  induction tags generalizing f with
  | nil => simp
  | cons x rest ih =>
    rw [List.foldl_cons, ih]
    have : ((mapUpd f x (d x) g) t).isSome = true ↔
        (t = x ∨ (f t).isSome = true) := by
      by_cases hx : t = x <;> simp [mapUpd, hx]
    rw [this, List.mem_cons]
    tauto

/-- Membership in a `setAdd`-accumulating per-tag map after one entry's
inner fold. -/
theorem foldl_mapUpd_setAdd_mem {α : Type} [DecidableEq α] (x : α)
    (tags : List String) (f : String → Option (List α)) (t : String)
    (r : α) :
    r ∈ (((tags.foldl
        (fun f' q => mapUpd f' q [] (fun l => setAdd l x)) f) t).getD []) ↔
      (r ∈ ((f t).getD []) ∨ (t ∈ tags ∧ r = x)) := by
  induction tags generalizing f with
  | nil => simp
  | cons q rest ih =>
    rw [List.foldl_cons, ih]
    have hq : ((mapUpd f q [] (fun l => setAdd l x)) t).getD [] =
        if t = q then setAdd ((f t).getD []) x else (f t).getD [] := by
      by_cases ht : t = q
      · subst ht; simp [mapUpd]
      · simp [mapUpd, ht]
    rw [hq]
    by_cases ht : t = q
    · subst ht
      rw [if_pos rfl]
      simp only [mem_setAdd, List.mem_cons, eq_self_iff_true, true_or,
        true_and]
      tauto
    · rw [if_neg ht]
      simp only [List.mem_cons, ht, false_or]

theorem foldl_const {α β : Type} (l : List β) (a : α) :
    l.foldl (fun x _ => x) a = a := by
  induction l with
  | nil => rfl
  | cons _ rest ih => exact ih

/-! ## Field behaviour of one aggregation update -/

theorem applyEntry_fields (cls : ClassState) (k : String) (m : Meta)
    (s : TagStat) :
    (applyEntry cls k m s).totalAvailable = s.totalAvailable + 1 ∧
    (applyEntry cls k m s).tag = s.tag ∧
    (applyEntry cls k m s).nextTargetDifficulty = s.nextTargetDifficulty ∧
    (applyEntry cls k m s).solvePercent = s.solvePercent ∧
    (applyEntry cls k m s).recommendScore = s.recommendScore ∧
    (applyEntry cls k m s).minFailedDifficulty = s.minFailedDifficulty ∧
    (applyEntry cls k m s).maxFailedDifficulty = s.maxFailedDifficulty ∧
    (applyEntry cls k m s).failSpan = s.failSpan := by
  simp only [applyEntry]
  split_ifs <;> (try split) <;> (try split_ifs) <;> simp_all

theorem applyEntry_split_sum (cls : ClassState) (k : String) (m : Meta)
    (s : TagStat)
    (hcls : (cls.status k).solved = true →
      (cls.origin k).contest = true ∨ (cls.origin k).practice = true)
    (h : s.solvedContest + s.solvedPractice = s.solved) :
    (applyEntry cls k m s).solvedContest +
      (applyEntry cls k m s).solvedPractice = (applyEntry cls k m s).solved := by
  simp only [applyEntry]
  by_cases h1 : (cls.status k).solved
  · by_cases h2 : (cls.origin k).contest
    · simp only [h1, h2, if_true]
      split_ifs <;> (try split) <;> (try split_ifs) <;> simp <;> omega
    · rcases hcls h1 with h3 | h3
      · exact absurd h3 h2
      · simp only [h1, h2, h3, if_true, if_false, Bool.false_eq_true]
        split_ifs <;> (try split) <;> (try split_ifs) <;> simp <;> omega
  · simp [h1, h]

/-! ## Outer-fold characterizations of the per-tag maps -/

theorem foldl_mapUpd_pres {α : Type} (P : String → α → Prop) (g : α → α)
    (d : String → α) (hd : ∀ t, P t (d t)) (hg : ∀ t a, P t a → P t (g a)) :
    ∀ (tags : List String) (f : String → Option α),
      (∀ t a, f t = some a → P t a) →
      ∀ t a, (tags.foldl (fun f' x => mapUpd f' x (d x) g) f) t = some a →
        P t a := by
  intro tags
  induction tags with
  | nil => intro f hf t a h; exact hf t a h
  | cons x xs ih =>
    intro f hf t a h
    rw [List.foldl_cons] at h
    refine ih _ ?_ t a h
    intro t' a' h'
    by_cases hx : t' = x
    · subst hx
      simp [mapUpd] at h'
      subst h'
      cases hft : f t' with
      | none =>
        simp only [hft, Option.getD_none]
        exact hg t' _ (hd t')
      | some a0 =>
        simp only [hft, Option.getD_some]
        exact hg t' _ (hf t' a0 hft)
    · simp only [mapUpd, if_neg hx] at h'
      exact hf t' a' h'

theorem tagStatsFun_inv (cls : ClassState) (entries : List (String × Meta))
    (P : String → TagStat → Prop)
    (hinit : ∀ t, P t (statInit t))
    (hstep : ∀ k m t s, P t s → P t (applyEntry cls k m s)) :
    ∀ t s, tagStatsFun cls entries t = some s → P t s := by
  suffices hgen : ∀ (es : List (String × Meta)) (f : String → Option TagStat),
      (∀ t s, f t = some s → P t s) →
      ∀ t s,
        (es.foldl
          (fun f km =>
            km.2.tags.foldl
              (fun f' t' => mapUpd f' t' (statInit t') (applyEntry cls km.1 km.2)) f)
          f) t = some s → P t s by
    exact hgen entries (fun _ => none) (by intro t s h; cases h)
  intro es
  induction es with
  | nil => intro f hf t s h; exact hf t s h
  | cons km rest ih =>
    intro f hf t s h
    rw [List.foldl_cons] at h
    exact ih _
      (foldl_mapUpd_pres P (applyEntry cls km.1 km.2) statInit hinit
        (fun t' s' hp => hstep km.1 km.2 t' s' hp) km.2.tags f hf) t s h

theorem tagStatsFun_isSome (cls : ClassState)
    (entries : List (String × Meta)) (t : String) :
    (tagStatsFun cls entries t).isSome = true ↔
      ∃ km ∈ entries, t ∈ km.2.tags := by
  suffices hgen : ∀ (es : List (String × Meta)) (f : String → Option TagStat),
      ((es.foldl
        (fun f km =>
          km.2.tags.foldl
            (fun f' t' => mapUpd f' t' (statInit t') (applyEntry cls km.1 km.2)) f)
        f) t).isSome = true ↔
        ((f t).isSome = true ∨ ∃ km ∈ es, t ∈ km.2.tags) by
    simpa using hgen entries (fun _ => none)
  intro es
  induction es with
  | nil => intro f; simp
  | cons km rest ih =>
    intro f
    rw [List.foldl_cons, ih, foldl_mapUpd_isSome]
    simp only [List.mem_cons]
    constructor
    · rintro ((h | h) | ⟨km', hkm', ht⟩)
      · exact Or.inr ⟨km, Or.inl rfl, h⟩
      · exact Or.inl h
      · exact Or.inr ⟨km', Or.inr hkm', ht⟩
    · rintro (h | ⟨km', hkm' | hkm', ht⟩)
      · exact Or.inl (Or.inr h)
      · exact Or.inl (Or.inl (hkm' ▸ ht))
      · exact Or.inr ⟨km', hkm', ht⟩

/-- The `totalAvailable` reading of an optional stat. -/
def optTA : Option TagStat → Nat
  | none => 0
  | some s => s.totalAvailable

theorem tagStatsFun_totalAvailable (cls : ClassState)
    (entries : List (String × Meta))
    (hnd : ∀ km ∈ entries, km.2.tags.Nodup) (t : String) :
    optTA (tagStatsFun cls entries t) =
      entries.countP (fun km => decide (t ∈ km.2.tags)) := by
  suffices hgen : ∀ (es : List (String × Meta))
      (f : String → Option TagStat), (∀ km ∈ es, km.2.tags.Nodup) →
      optTA ((es.foldl
        (fun f km =>
          km.2.tags.foldl
            (fun f' t' => mapUpd f' t' (statInit t') (applyEntry cls km.1 km.2)) f)
        f) t) =
        optTA (f t) + es.countP (fun km => decide (t ∈ km.2.tags)) by
    simpa [optTA] using hgen entries (fun _ => none) hnd
  intro es
  induction es with
  | nil => intro f _; simp [List.countP_nil]
  | cons km rest ih =>
    intro f hnd'
    rw [List.foldl_cons,
      ih _ (fun km' h => hnd' km' (List.mem_cons_of_mem _ h))]
    have hinner : optTA ((km.2.tags.foldl
        (fun f' t' => mapUpd f' t' (statInit t') (applyEntry cls km.1 km.2)) f) t) =
        optTA (f t) + (if t ∈ km.2.tags then 1 else 0) := by
      by_cases hmem : t ∈ km.2.tags
      · rw [foldl_mapUpd_nodup_eval _ _ _ _ _
          (hnd' km (List.mem_cons_self _ _)) hmem, if_pos hmem]
        cases hft : f t with
        | none =>
          simp only [Option.getD_none]
          have hTA := (applyEntry_fields cls km.1 km.2 (statInit t)).1
          simp only [optTA]
          rw [hTA]
          rfl
        | some s0 =>
          simp only [Option.getD_some]
          have hTA := (applyEntry_fields cls km.1 km.2 s0).1
          simp only [optTA]
          rw [hTA]
      · rw [foldl_mapUpd_not_mem _ _ _ _ _ hmem, if_neg hmem]
        simp
    rw [hinner, List.countP_cons]
    by_cases hmem : t ∈ km.2.tags
    · simp only [hmem, decide_eq_true_eq, if_pos]
      omega
    · simp only [hmem, if_neg, decide_eq_true_eq]
      omega

theorem perTagProblemListFun_eq (entries : List (String × Meta))
    (hkeys : (entries.map Prod.fst).Nodup) (t : String) :
    perTagProblemListFun entries t =
      if (∃ km ∈ entries, t ∈ km.2.tags) then
        some ((entries.filter fun km => decide (t ∈ km.2.tags)).map Prod.fst)
      else none := by
  induction entries using List.reverseRecOn with
  | nil => simp [perTagProblemListFun]
  | append_singleton es km ih =>
    have hes : (es.map Prod.fst).Nodup := by
      rw [List.map_append] at hkeys
      exact (List.nodup_append.mp hkeys).1
    have hknotin : km.1 ∉ es.map Prod.fst := by
      rw [List.map_append] at hkeys
      have := (List.nodup_append.mp hkeys).2.2
      intro hmem
      exact this hmem (by simp)
    have hstep : perTagProblemListFun (es ++ [km]) t =
        (km.2.tags.foldl
          (fun f' t' => mapUpd f' t' [] (fun l => setAdd l km.1))
          (perTagProblemListFun es)) t := by
      simp only [perTagProblemListFun, List.foldl_append, List.foldl_cons,
        List.foldl_nil]
    rw [hstep]
    by_cases hmem : t ∈ km.2.tags
    · rw [foldl_mapUpd_idem_eval _ _ _ _ _ (fun l => setAdd_idem l km.1) hmem]
      rw [ih hes]
      by_cases hex : ∃ km' ∈ es, t ∈ km'.2.tags
      · have hex' : ∃ km' ∈ es ++ [km], t ∈ km'.2.tags := by
          rcases hex with ⟨km', h1, h2⟩
          exact ⟨km', List.mem_append_left _ h1, h2⟩
        rw [if_pos hex, if_pos hex']
        have hnot : km.1 ∉ (es.filter fun km' =>
            decide (t ∈ km'.2.tags)).map Prod.fst := by
          intro hmem'
          apply hknotin
          rcases List.mem_map.mp hmem' with ⟨e, he, heq⟩
          exact heq ▸ List.mem_map_of_mem Prod.fst (List.mem_of_mem_filter he)
        rw [Option.getD_some, setAdd_not_mem hnot]
        simp [List.filter_append, List.filter_cons, hmem]
      · have hex' : ∃ km' ∈ es ++ [km], t ∈ km'.2.tags :=
          ⟨km, List.mem_append_right _ (List.mem_singleton_self km), hmem⟩
        rw [if_neg hex, if_pos hex']
        have hnil : es.filter (fun km' => decide (t ∈ km'.2.tags)) = [] := by
          rw [List.filter_eq_nil_iff]
          intro km' h1
          simp only [decide_eq_true_eq]
          intro h2
          exact hex ⟨km', h1, h2⟩
        rw [Option.getD_none, setAdd_not_mem (by simp)]
        simp [List.filter_append, List.filter_cons, hmem, hnil]
    · rw [foldl_mapUpd_not_mem _ _ _ _ _ hmem, ih hes]
      have hiff : (∃ km' ∈ es ++ [km], t ∈ km'.2.tags) ↔
          (∃ km' ∈ es, t ∈ km'.2.tags) := by
        constructor
        · rintro ⟨km', h1, h2⟩
          rcases List.mem_append.mp h1 with h1 | h1
          · exact ⟨km', h1, h2⟩
          · simp only [List.mem_singleton] at h1
            exact absurd (h1 ▸ h2) hmem
        · rintro ⟨km', h1, h2⟩
          exact ⟨km', List.mem_append_left _ h1, h2⟩
      rw [if_congr hiff rfl rfl]
      by_cases hex : ∃ km' ∈ es, t ∈ km'.2.tags <;>
        simp [hex, List.filter_append, List.filter_cons, hmem]

theorem tagRatingsFun_mem (entries : List (String × Meta)) (t : String)
    (r : Nat) :
    r ∈ ((tagRatingsFun entries t).getD []) ↔
      ∃ km ∈ entries, t ∈ km.2.tags ∧ isRated km.2.rating = true ∧
        ratingVal km.2.rating = r := by
  suffices hgen : ∀ (es : List (String × Meta))
      (f : String → Option (List Nat)),
      r ∈ (((es.foldl
        (fun f km =>
          km.2.tags.foldl
            (fun f' t' =>
              if isRated km.2.rating then
                mapUpd f' t' [] (fun l => setAdd l (ratingVal km.2.rating))
              else f') f)
        f) t).getD []) ↔
        (r ∈ ((f t).getD []) ∨
          ∃ km ∈ es, t ∈ km.2.tags ∧ isRated km.2.rating = true ∧
            ratingVal km.2.rating = r) by
    simpa using hgen entries (fun _ => none)
  intro es
  induction es with
  | nil => intro f; simp
  | cons km rest ih =>
    intro f
    rw [List.foldl_cons, ih]
    by_cases hr : isRated km.2.rating
    · simp only [hr, if_true]
      rw [foldl_mapUpd_setAdd_mem]
      simp only [List.mem_cons]
      constructor
      · rintro ((h | ⟨h1, h2⟩) | ⟨km', h1, h2⟩)
        · exact Or.inl h
        · exact Or.inr ⟨km, Or.inl rfl, h1, hr, h2.symm⟩
        · exact Or.inr ⟨km', Or.inr h1, h2⟩
      · rintro (h | ⟨km', h1 | h1, h2⟩)
        · exact Or.inl (Or.inl h)
        · subst h1
          exact Or.inl (Or.inr ⟨h2.1, h2.2.2.symm⟩)
        · exact Or.inr ⟨km', h1, h2⟩
    · simp only [hr, if_false, Bool.false_eq_true]
      rw [foldl_const]
      simp only [List.mem_cons]
      constructor
      · rintro (h | ⟨km', h1, h2⟩)
        · exact Or.inl h
        · exact Or.inr ⟨km', Or.inr h1, h2⟩
      · rintro (h | ⟨km', h1 | h1, h2⟩)
        · exact Or.inl h
        · subst h1
          exact absurd h2.2.1 (by simp [hr])
        · exact Or.inr ⟨km', h1, h2⟩

theorem mem_tagOrderOf (entries : List (String × Meta)) (t : String) :
    t ∈ tagOrderOf entries ↔ ∃ km ∈ entries, t ∈ km.2.tags := by
  suffices hgen : ∀ (es : List (String × Meta)) (acc : List String),
      t ∈ es.foldl (fun acc km => km.2.tags.foldl setAdd acc) acc ↔
        (t ∈ acc ∨ ∃ km ∈ es, t ∈ km.2.tags) by
    simpa using hgen entries []
  intro es
  induction es with
  | nil => intro acc; simp
  | cons km rest ih =>
    intro acc
    rw [List.foldl_cons, ih, foldl_setAdd_mem]
    simp only [List.mem_cons]
    constructor
    · rintro ((h | h) | ⟨km', h1, h2⟩)
      · exact Or.inl h
      · exact Or.inr ⟨km, Or.inl rfl, h⟩
      · exact Or.inr ⟨km', Or.inr h1, h2⟩
    · rintro (h | ⟨km', h1 | h1, h2⟩)
      · exact Or.inl (Or.inl h)
      · exact Or.inl (Or.inr (h1 ▸ h2))
      · exact Or.inr ⟨km', h1, h2⟩

theorem tagOrderOf_nodup (entries : List (String × Meta)) :
    (tagOrderOf entries).Nodup := by
  suffices hgen : ∀ (es : List (String × Meta)) (acc : List String),
      acc.Nodup → (es.foldl (fun acc km => km.2.tags.foldl setAdd acc) acc).Nodup by
    exact hgen entries [] List.nodup_nil
  intro es
  induction es with
  | nil => intro acc h; exact h
  | cons km rest ih =>
    intro acc h
    exact ih _ (foldl_setAdd_nodup _ h)

/-! ## Sorting lemmas -/

theorem mem_insertAsc (x y : Nat) (l : List Nat) :
    y ∈ insertAsc x l ↔ y = x ∨ y ∈ l := by
  induction l with
  | nil => simp [insertAsc]
  | cons z rest ih =>
    by_cases h : x ≤ z
    · simp [insertAsc, h]
    · simp [insertAsc, h, ih]
      tauto

theorem mem_sortAsc (x : Nat) (l : List Nat) :
    x ∈ sortAsc l ↔ x ∈ l := by
  induction l with
  | nil => simp [sortAsc]
  | cons z rest ih =>
    simp only [sortAsc, List.foldr_cons] at ih ⊢
    rw [mem_insertAsc, ih, List.mem_cons]

theorem sorted_insertAsc (x : Nat) (l : List Nat)
    (h : l.Sorted (· ≤ ·)) : (insertAsc x l).Sorted (· ≤ ·) := by
  induction l with
  | nil => simp [insertAsc]
  | cons z rest ih =>
    by_cases hx : x ≤ z
    · simp only [insertAsc, if_pos hx]
      rw [List.sorted_cons]
      refine ⟨fun b hb => ?_, h⟩
      rcases List.mem_cons.mp hb with rfl | hb
      · exact hx
      · exact le_trans hx ((List.sorted_cons.mp h).1 b hb)
    · simp only [insertAsc, if_neg hx]
      rw [List.sorted_cons] at h ⊢
      refine ⟨fun b hb => ?_, ih h.2⟩
      rcases (mem_insertAsc x b rest).mp hb with rfl | hb
      · exact le_of_not_le hx
      · exact h.1 b hb

theorem sorted_sortAsc (l : List Nat) : (sortAsc l).Sorted (· ≤ ·) := by
  induction l with
  | nil => simp [sortAsc]
  | cons z rest ih => exact sorted_insertAsc z _ ih

/-- In an ascending list, `find?` of an upward-closed bound is the least
element above the bound. -/
theorem find_sorted_least (l : List Nat) (mx : Nat)
    (hs : l.Sorted (· ≤ ·)) :
    (∀ n, l.find? (fun r => mx < r) = some n →
      (mx < n ∧ n ∈ l ∧ ∀ r ∈ l, mx < r → n ≤ r)) ∧
    (l.find? (fun r => mx < r) = none → ∀ r ∈ l, ¬ mx < r) := by
  induction l with
  | nil => simp
  | cons z rest ih =>
    rw [List.sorted_cons] at hs
    by_cases hz : mx < z
    · constructor
      · intro n hn
        rw [List.find?_cons_of_pos _ (by simpa using hz)] at hn
        have hzn : n = z := by simpa using hn.symm
        subst hzn
        refine ⟨hz, List.mem_cons_self _ _, fun r hr _ => ?_⟩
        rcases List.mem_cons.mp hr with rfl | hr
        · exact le_refl _
        · exact hs.1 r hr
      · intro hn
        rw [List.find?_cons_of_pos _ (by simpa using hz)] at hn
        cases hn
    · constructor
      · intro n hn
        rw [List.find?_cons_of_neg _ (by simpa using hz)] at hn
        obtain ⟨h1, h2, h3⟩ := (ih hs.2).1 n hn
        exact ⟨h1, List.mem_cons_of_mem _ h2, fun r hr hmx => by
          rcases List.mem_cons.mp hr with rfl | hr
          · exact absurd hmx hz
          · exact h3 r hr hmx⟩
      · intro hn r hr
        rw [List.find?_cons_of_neg _ (by simpa using hz)] at hn
        rcases List.mem_cons.mp hr with rfl | hr
        · exact hz
        · exact (ih hs.2).2 hn r hr

theorem insertDesc_perm (x : TagStat) (l : List TagStat) :
    (insertDesc x l).Perm (x :: l) := by
  induction l with
  | nil => exact List.Perm.refl _
  | cons y rest ih =>
    by_cases h : y.solved > x.solved
    · simp only [insertDesc, if_pos h]
      exact (ih.cons y).trans (List.Perm.swap x y rest)
    · simp only [insertDesc, if_neg h]
      exact List.Perm.refl _

theorem sortBySolvedDesc_perm (l : List TagStat) :
    (sortBySolvedDesc l).Perm l := by
  induction l with
  | nil => exact List.Perm.refl _
  | cons x rest ih =>
    simp only [sortBySolvedDesc, List.foldr_cons] at ih ⊢
    exact (insertDesc_perm x _).trans (ih.cons x)

theorem mem_sortBySolvedDesc (x : TagStat) (l : List TagStat) :
    x ∈ sortBySolvedDesc l ↔ x ∈ l :=
  (sortBySolvedDesc_perm l).mem_iff

/-! ## Bucket lemmas -/

theorem lookupN_bucketUpd (dm : List (Nat × Bucket)) (r : Nat)
    (g : Bucket → Bucket) (q : Nat) :
    lookupN (bucketUpd dm r g) q =
      if q = r then some (g ((lookupN dm r).getD ⟨0, 0, 0, 0, 0⟩))
      else lookupN dm q := by
  induction dm with
  | nil =>
    by_cases hq : q = r <;> simp [bucketUpd, lookupN, hq]
  | cons kb rest ih =>
    obtain ⟨k, b⟩ := kb
    by_cases hk : k = r
    · subst hk
      by_cases hq : q = k <;> simp [bucketUpd, lookupN, hq]
    · have hrk : ¬ r = k := fun h => hk h.symm
      by_cases hq : q = k
      · subst hq
        simp [bucketUpd, hk, lookupN]
      · simp [bucketUpd, hk, lookupN, hq, ih, hrk]

theorem mem_bucketUpd (dm : List (Nat × Bucket)) (r : Nat)
    (g : Bucket → Bucket) :
    ∀ rb ∈ bucketUpd dm r g, rb ∈ dm ∨
      ∃ b0, rb.2 = g b0 ∧ (b0 = ⟨0, 0, 0, 0, 0⟩ ∨ (rb.1, b0) ∈ dm) := by
  induction dm with
  | nil =>
    intro rb hrb
    simp [bucketUpd] at hrb
    subst hrb
    exact Or.inr ⟨⟨0, 0, 0, 0, 0⟩, rfl, Or.inl rfl⟩
  | cons kb rest ih =>
    obtain ⟨k, b⟩ := kb
    intro rb hrb
    by_cases hk : k = r
    · subst hk
      simp only [bucketUpd, if_pos rfl] at hrb
      rcases List.mem_cons.mp hrb with rfl | hrb
      · exact Or.inr ⟨b, rfl, Or.inr (List.mem_cons_self _ _)⟩
      · exact Or.inl (List.mem_cons_of_mem _ hrb)
    · simp only [bucketUpd, if_neg hk] at hrb
      rcases List.mem_cons.mp hrb with rfl | hrb
      · exact Or.inl (List.mem_cons_self _ _)
      · rcases ih rb hrb with h | ⟨b0, h1, h2⟩
        · exact Or.inl (List.mem_cons_of_mem _ h)
        · rcases h2 with h2 | h2
          · exact Or.inr ⟨b0, h1, Or.inl h2⟩
          · exact Or.inr ⟨b0, h1, Or.inr (List.mem_cons_of_mem _ h2)⟩

/-- `bucketContrib` bumps `total` and exactly one category counter. -/
theorem bucketContrib_shape (st : Status) (og : Origin) (b : Bucket) :
    (bucketContrib st og b).total = b.total + 1 ∧
    (bucketContrib st og b).solvedContest + (bucketContrib st og b).solvedPractice +
      (bucketContrib st og b).failedContest + (bucketContrib st og b).unsolved =
      b.solvedContest + b.solvedPractice + b.failedContest + b.unsolved + 1 := by
  simp only [bucketContrib]
  by_cases h1 : st.solved <;> by_cases h2 : og.contest <;>
    by_cases h3 : st.failedContest <;> simp [h1, h2, h3] <;> omega

/-- Every bucket produced by the shared builder satisfies the totals
equation. -/
theorem buildBuckets_total (v : AggView) (keys : List String) :
    ∀ rb ∈ buildBuckets v keys,
      rb.2.total = rb.2.solvedContest + rb.2.solvedPractice +
        rb.2.failedContest + rb.2.unsolved := by
  suffices hgen : ∀ (ks : List String) (dm : List (Nat × Bucket)),
      (∀ rb ∈ dm, rb.2.total = rb.2.solvedContest + rb.2.solvedPractice +
        rb.2.failedContest + rb.2.unsolved) →
      ∀ rb ∈ ks.foldl (bucketStep v) dm,
        rb.2.total = rb.2.solvedContest + rb.2.solvedPractice +
          rb.2.failedContest + rb.2.unsolved by
    exact hgen keys [] (by simp)
  intro ks
  induction ks with
  | nil => intro dm hdm rb hrb; exact hdm rb hrb
  | cons k rest ih =>
    intro dm hdm rb hrb
    rw [List.foldl_cons] at hrb
    refine ih _ ?_ rb hrb
    intro rb' hrb'
    simp only [bucketStep] at hrb'
    cases hm : v.meta k with
    | none =>
      rw [hm] at hrb'
      exact hdm rb' hrb'
    | some m =>
      rw [hm] at hrb'
      rcases mem_bucketUpd _ _ _ rb' hrb' with h | ⟨b0, h1, h2⟩
      · exact hdm rb' h
      · have hb0 : b0.total = b0.solvedContest + b0.solvedPractice +
            b0.failedContest + b0.unsolved := by
          rcases h2 with rfl | h2
          · rfl
          · exact hdm (rb'.1, b0) h2
        obtain ⟨ht, hsum⟩ :=
          bucketContrib_shape (v.status k) (v.origin k) b0
        rw [h1, ht, hsum, hb0]

/-- The sum of one difficulty map's `total` counters. -/
def sumTotals (dm : List (Nat × Bucket)) : Nat :=
  (dm.map fun rb => rb.2.total).sum

theorem sumTotals_bucketUpd (dm : List (Nat × Bucket)) (r : Nat)
    (g : Bucket → Bucket) (hg : ∀ b, (g b).total = b.total + 1) :
    sumTotals (bucketUpd dm r g) = sumTotals dm + 1 := by
  induction dm with
  | nil => simp [bucketUpd, sumTotals, hg]
  | cons kb rest ih =>
    obtain ⟨k, b⟩ := kb
    by_cases hk : k = r
    · subst hk
      simp [bucketUpd, sumTotals, hg]
      omega
    · simp only [bucketUpd, if_neg hk]
      simp only [sumTotals, List.map_cons, List.sum_cons] at ih ⊢
      omega

theorem sumTotals_buildBuckets (v : AggView) (keys : List String) :
    sumTotals (buildBuckets v keys) =
      keys.countP (fun k => (v.meta k).isSome) := by
  suffices hgen : ∀ (ks : List String) (dm : List (Nat × Bucket)),
      sumTotals (ks.foldl (bucketStep v) dm) =
        sumTotals dm + ks.countP (fun k => (v.meta k).isSome) by
    simpa [sumTotals] using hgen keys []
  intro ks
  induction ks with
  | nil => intro dm; simp [List.countP_nil]
  | cons k rest ih =>
    intro dm
    rw [List.foldl_cons, ih, List.countP_cons]
    simp only [bucketStep]
    cases hm : v.meta k with
    | none => simp [hm]
    | some m =>
      rw [sumTotals_bucketUpd _ _ _
        (fun b => (bucketContrib_shape (v.status k) (v.origin k) b).1)]
      simp [hm]
      omega

/-! ## Intersection-loop lemmas -/

theorem mem_filter_contains (i0 s : List String) (k : String) :
    k ∈ i0.filter (fun k' => s.contains k') ↔ k ∈ i0 ∧ k ∈ s := by
  rw [List.mem_filter]
  constructor
  · rintro ⟨h1, h2⟩
    exact ⟨h1, by simpa using h2⟩
  · rintro ⟨h1, h2⟩
    exact ⟨h1, by simpa using h2⟩

theorem interFold_missing (v : AggView) :
    ∀ (tags : List String) (inter : Option (List String)),
      (∃ t ∈ tags, v.perTagProblemList t = none) →
      interFold v inter tags = some [] := by
  intro tags
  induction tags with
  | nil => rintro inter ⟨t, ht, _⟩; simp at ht
  | cons t rest ih =>
    rintro inter ⟨t', ht', hnone⟩
    cases hp : v.perTagProblemList t with
    | none => simp [interFold, hp]
    | some s =>
      have hrest : ∃ t'' ∈ rest, v.perTagProblemList t'' = none := by
        rcases List.mem_cons.mp ht' with rfl | hmem
        · rw [hp] at hnone; cases hnone
        · exact ⟨t', hmem, hnone⟩
      simp only [interFold, hp]
      set i := match inter with
        | none => s
        | some i0 => i0.filter fun k => s.contains k with hi
      by_cases hempty : i.isEmpty
      · rw [if_pos hempty]
        rw [List.isEmpty_iff] at hempty
        rw [hempty]
      · rw [if_neg hempty]
        exact ih _ hrest

theorem interFold_all_present (v : AggView) :
    ∀ (tags : List String) (i0 : List String),
      (∀ t ∈ tags, (v.perTagProblemList t).isSome = true) →
      ∃ j, interFold v (some i0) tags = some j ∧
        ∀ k, k ∈ j ↔ (k ∈ i0 ∧ ∀ t ∈ tags, ∀ s,
          v.perTagProblemList t = some s → k ∈ s) := by
  intro tags
  induction tags with
  | nil =>
    intro i0 _
    exact ⟨i0, rfl, fun k => by simp⟩
  | cons t rest ih =>
    intro i0 hall
    have hsome := hall t (List.mem_cons_self _ _)
    cases hp : v.perTagProblemList t with
    | none => rw [hp] at hsome; cases hsome
    | some s =>
      simp only [interFold, hp]
      by_cases hempty : (i0.filter fun k => s.contains k).isEmpty
      · rw [if_pos hempty]
        rw [List.isEmpty_iff] at hempty
        refine ⟨_, rfl, fun k => ?_⟩
        constructor
        · intro hk
          rw [hempty] at hk
          cases hk
        · rintro ⟨h1, h2⟩
          have hks : k ∈ s := h2 t (List.mem_cons_self _ _) s hp
          have : k ∈ i0.filter (fun k' => s.contains k') :=
            (mem_filter_contains i0 s k).mpr ⟨h1, hks⟩
          rw [hempty] at this
          cases this
      · rw [if_neg hempty]
        obtain ⟨j, hj, hchar⟩ := ih (i0.filter fun k => s.contains k)
          (fun t' ht' => hall t' (List.mem_cons_of_mem _ ht'))
        refine ⟨j, hj, fun k => ?_⟩
        rw [hchar k, mem_filter_contains]
        constructor
        · rintro ⟨⟨h1, h2⟩, h3⟩
          refine ⟨h1, fun t' ht' s' hs' => ?_⟩
          rcases List.mem_cons.mp ht' with rfl | hmem
          · rw [hp] at hs'
            cases hs'
            exact h2
          · exact h3 t' hmem s' hs'
        · rintro ⟨h1, h2⟩
          exact ⟨⟨h1, h2 t (List.mem_cons_self _ _) s hp⟩,
            fun t' ht' s' hs' => h2 t' (List.mem_cons_of_mem _ ht') s' hs'⟩

/-! ## Snapshot-codec identities -/

theorem rebuildDiffMapFromSnapshot_id (l : List (Nat × Bucket)) :
    rebuildDiffMapFromSnapshot l = l := by
  induction l with
  | nil => rfl
  | cons db rest ih =>
    simp only [rebuildDiffMapFromSnapshot, List.map_cons] at ih ⊢
    rw [ih]

theorem rehydrate_serialize_id
    (buckets : List (String × List (Nat × Bucket))) (stat : TagStat) :
    rehydrateTagStat (serializeTagStat buckets stat).1
      (serializeTagStat buckets stat).2 = stat := rfl

/-! ## Aggregate-level helper lemmas -/

theorem postStat_preserves (tra : String → Option (List Nat)) (s : TagStat) :
    (postStat tra s).tag = s.tag ∧
    (postStat tra s).solved = s.solved ∧
    (postStat tra s).solvedContest = s.solvedContest ∧
    (postStat tra s).solvedPractice = s.solvedPractice ∧
    (postStat tra s).totalAvailable = s.totalAvailable ∧
    (postStat tra s).maxSolved = s.maxSolved ∧
    (postStat tra s).recommendScore = s.recommendScore ∧
    (postStat tra s).minFailedDifficulty = s.minFailedDifficulty ∧
    (postStat tra s).maxFailedDifficulty = s.maxFailedDifficulty ∧
    (postStat tra s).failSpan = s.failSpan := by
  simp only [postStat]
  split <;> (try split) <;> (try split) <;> simp

theorem tagStatsFun_tag_next (cls : ClassState)
    (entries : List (String × Meta)) :
    ∀ t s, tagStatsFun cls entries t = some s →
      s.tag = t ∧ s.nextTargetDifficulty = none := by
  refine tagStatsFun_inv cls entries
    (fun t s => s.tag = t ∧ s.nextTargetDifficulty = none)
    (fun t => ⟨rfl, rfl⟩) ?_
  intro k m t s hs
  obtain ⟨_, htag, hnext, _⟩ := applyEntry_fields cls k m s
  exact ⟨htag.trans hs.1, hnext.trans hs.2⟩

theorem baseStat_tag_next (cls : ClassState) (entries : List (String × Meta))
    (t : String) :
    ((tagStatsFun cls entries t).getD (statInit t)).tag = t ∧
    ((tagStatsFun cls entries t).getD (statInit t)).nextTargetDifficulty =
      none := by
  cases h : tagStatsFun cls entries t with
  | none => simp [statInit]
  | some s => simpa using tagStatsFun_tag_next cls entries t s h

/-- Membership in the freshly aggregated `tagArray`. -/
theorem aggregate_tagArray_mem (subs : List Submission) (ps : Problemset)
    (stat : TagStat) :
    stat ∈ (aggregate subs ps).tagArray ↔
      ∃ t ∈ tagOrderOf (buildMetaList ps.problems),
        stat = postStat (tagRatingsFun (buildMetaList ps.problems))
          ((tagStatsFun
              (classify (fun k => (lookupA (buildMetaList ps.problems) k).isSome) subs)
              (buildMetaList ps.problems) t).getD (statInit t)) := by
  simp only [aggregate]
  rw [mem_sortBySolvedDesc, List.mem_map]
  constructor
  · rintro ⟨t, ht, rfl⟩
    exact ⟨t, ht, rfl⟩
  · rintro ⟨t, ht, rfl⟩
    exact ⟨t, ht, rfl⟩

theorem aggregate_tags_nodup (subs : List Submission) (ps : Problemset) :
    ((aggregate subs ps).tagArray.map (fun s => s.tag)).Nodup := by
  simp only [aggregate]
  have hperm := (sortBySolvedDesc_perm
    ((tagOrderOf (buildMetaList ps.problems)).map fun t =>
      postStat (tagRatingsFun (buildMetaList ps.problems))
        ((tagStatsFun
            (classify (fun k => (lookupA (buildMetaList ps.problems) k).isSome) subs)
            (buildMetaList ps.problems) t).getD (statInit t)))).map
    (fun s => s.tag)
  refine hperm.nodup_iff.mpr ?_
  rw [List.map_map]
  have : ((tagOrderOf (buildMetaList ps.problems)).map
      ((fun s => s.tag) ∘ fun t =>
        postStat (tagRatingsFun (buildMetaList ps.problems))
          ((tagStatsFun
              (classify (fun k => (lookupA (buildMetaList ps.problems) k).isSome) subs)
              (buildMetaList ps.problems) t).getD (statInit t)))) =
      (tagOrderOf (buildMetaList ps.problems)).map id := by
    refine List.map_congr_left ?_
    intro t _
    simp only [Function.comp_apply, id_eq]
    rw [(postStat_preserves _ _).1]
    exact (baseStat_tag_next _ _ t).1
  rw [this, List.map_id]
  exact tagOrderOf_nodup _

/-- The recommendation scorer changes only `recommendScore`. -/
theorem computeRecommendationScores_mem (l : List TagStat)
    (tra : String → Option (List Nat)) :
    ∀ stat ∈ computeRecommendationScores l tra, ∃ s ∈ l,
      stat.tag = s.tag ∧ stat.solved = s.solved ∧
      stat.solvedContest = s.solvedContest ∧
      stat.solvedPractice = s.solvedPractice ∧
      stat.totalAvailable = s.totalAvailable ∧
      stat.maxSolved = s.maxSolved ∧
      stat.nextTargetDifficulty = s.nextTargetDifficulty ∧
      stat.minFailedDifficulty = s.minFailedDifficulty ∧
      stat.maxFailedDifficulty = s.maxFailedDifficulty ∧
      stat.failSpan = s.failSpan := by
  intro stat hstat
  simp only [computeRecommendationScores] at hstat
  by_cases hl : l.length = 0
  · rw [if_pos hl] at hstat
    exact ⟨stat, hstat, rfl, rfl, rfl, rfl, rfl, rfl, rfl, rfl, rfl, rfl⟩
  · rw [if_neg hl] at hstat
    rcases List.mem_map.mp hstat with ⟨s, hs, rfl⟩
    exact ⟨s, hs, rfl, rfl, rfl, rfl, rfl, rfl, rfl, rfl, rfl, rfl⟩

/-- The fail-band pass changes only the three band fields. -/
theorem computeFailedDifficultyBand_mem (a : Agg) :
    ∀ stat ∈ (computeFailedDifficultyBand a).tagArray, ∃ s ∈ a.tagArray,
      stat.tag = s.tag ∧ stat.solved = s.solved ∧
      stat.solvedContest = s.solvedContest ∧
      stat.solvedPractice = s.solvedPractice ∧
      stat.totalAvailable = s.totalAvailable ∧
      stat.maxSolved = s.maxSolved ∧
      stat.nextTargetDifficulty = s.nextTargetDifficulty ∧
      stat.recommendScore = s.recommendScore := by
  intro stat hstat
  simp only [computeFailedDifficultyBand] at hstat
  rcases List.mem_map.mp hstat with ⟨s, hs, rfl⟩
  cases hp : a.perTagProblemList s.tag with
  | none => exact ⟨s, hs, by simp [hp]⟩
  | some keys => exact ⟨s, hs, by simp [hp]⟩

theorem buildAllTag_preserve (a : Agg) (q : String) :
    ∀ (l : List TagStat) (acc : List (String × List (Nat × Bucket))),
      (∀ y ∈ l, y.tag ≠ q) →
      lookupA (l.foldl
        (fun acc stat =>
          match a.perTagProblemList stat.tag with
          | none => acc
          | some keys => mapSet acc stat.tag (buildBuckets a.view keys))
        acc) q = lookupA acc q := by
  intro l
  induction l with
  | nil => intro acc _; rfl
  | cons y rest ih =>
    intro acc hne
    rw [List.foldl_cons,
      ih _ (fun z hz => hne z (List.mem_cons_of_mem _ hz))]
    cases hp : a.perTagProblemList y.tag with
    | none => rfl
    | some ks =>
      rw [lookupA_mapSet,
        if_neg (fun h => hne y (List.mem_cons_self _ _) h.symm)]

/-- Looking up one stat's buckets in `buildAllTagDifficultyBuckets`. -/
theorem buildAllTag_lookup (a : Agg)
    (hnd : (a.tagArray.map (fun s => s.tag)).Nodup) :
    ∀ stat ∈ a.tagArray, ∀ keys,
      a.perTagProblemList stat.tag = some keys →
      lookupA (buildAllTagDifficultyBuckets a) stat.tag =
        some (buildBuckets a.view keys) := by
  suffices hgen : ∀ (l : List TagStat)
      (acc : List (String × List (Nat × Bucket))),
      (l.map (fun s => s.tag)).Nodup →
      ∀ stat ∈ l, ∀ keys, a.perTagProblemList stat.tag = some keys →
        lookupA (l.foldl
          (fun acc stat =>
            match a.perTagProblemList stat.tag with
            | none => acc
            | some keys => mapSet acc stat.tag (buildBuckets a.view keys))
          acc) stat.tag = some (buildBuckets a.view keys) by
    intro stat hstat keys hkeys
    exact hgen a.tagArray [] hnd stat hstat keys hkeys
  intro l
  induction l with
  | nil => intro acc _ stat hstat; simp at hstat
  | cons x rest ih =>
    intro acc hnd' stat hstat keys hkeys
    rw [List.map_cons, List.nodup_cons] at hnd'
    rw [List.foldl_cons]
    rcases List.mem_cons.mp hstat with rfl | hmem
    · have hne : ∀ y ∈ rest, y.tag ≠ stat.tag := by
        intro y hy hcontra
        exact hnd'.1 (hcontra ▸ List.mem_map_of_mem (fun s => s.tag) hy)
      rw [buildAllTag_preserve a stat.tag rest _ hne, hkeys,
        lookupA_mapSet, if_pos rfl]
    · exact ih _ hnd'.2 stat hmem keys hkeys

theorem classify_solved_imp_origin (idx : String → Bool)
    (subs : List Submission) (k : String)
    (h : ((classify idx subs).status k).solved = true) :
    ((classify idx subs).origin k).contest = true ∨
      ((classify idx subs).origin k).practice = true := by
  rw [classify, classify_fold_solved] at h
  simp only [classInit, Bool.false_or] at h
  rcases List.any_eq_true.mp h with ⟨s, hs, hok⟩
  rw [classify, classify_fold_origin]
  simp only [classInit, Bool.false_or]
  by_cases hc : s.contestId.isSome
  · exact Or.inl (List.any_eq_true.mpr ⟨s, hs, by rw [hok, hc]; rfl⟩)
  · refine Or.inr (List.any_eq_true.mpr ⟨s, hs, ?_⟩)
    rw [hok]
    simp only [Bool.not_eq_true] at hc
    simp [hc]

/-! ## Claim C4 — cache read contract -/

/-- C4: `loadSnapshot` returns a stored snapshot exactly when the stored
value parses, carries the current schema version (2), and is at most six
hours old; an absent value, a parse failure, a different schema version
or an expired age all yield `none`. The embedding is a total function,
so no exception can escape the cache boundary. -/
theorem c4_cache_read (stored : Option (Option Snapshot)) (now : Int)
    (s : Snapshot) :
    loadSnapshot stored now = some s ↔
      (stored = some (some s) ∧
        s.schemaVersion = SNAPSHOT_SCHEMA_VERSION ∧
        now - s.generatedAt ≤ CACHE_TTL_HOURS * 3600 * 1000) := by
  cases stored with
  | none => simp [loadSnapshot]
  | some o =>
    cases o with
    | none => simp [loadSnapshot]
    | some obj =>
      simp only [loadSnapshot]
      split_ifs with h1 h2
      · constructor
        · intro h; cases h
        · rintro ⟨hs, hv, _⟩
          simp only [Option.some.injEq] at hs
          subst hs
          exact absurd hv h1
      · constructor
        · intro h; cases h
        · rintro ⟨hs, _, h3⟩
          simp only [Option.some.injEq] at hs
          subst hs
          exact absurd h3 (not_le.mpr h2)
      · constructor
        · intro h
          simp only [Option.some.injEq] at h
          subst h
          exact ⟨rfl, not_not.mp h1, not_lt.mp h2⟩
        · rintro ⟨hs, _, _⟩
          simp only [Option.some.injEq] at hs
          rw [hs]

/-! ## Claim C3 — the qualifying-failure verdict set -/

/-- Modelled from the spec: the closed list of qualifying failure verdicts
that §4.2 enumerates (wrong-answer, time/memory-limit-exceeded,
idleness-limit-exceeded, rejected, failed, presentation-error, challenged,
partial, compilation-error, crashed, skipped) — the spec's list omits the
runtime-error verdict. -/
def specQualifyingFailureVerdicts : List String :=
  ["WRONG_ANSWER", "TIME_LIMIT_EXCEEDED", "MEMORY_LIMIT_EXCEEDED",
   "IDLENESS_LIMIT_EXCEEDED", "REJECTED", "FAILED", "PRESENTATION_ERROR",
   "CHALLENGED", "PARTIAL", "COMPILATION_ERROR", "CRASHED", "SKIPPED"]

/-- A one-problem catalog entry used by the concrete checks of several
claims (key `1-A`, tag `dp`, rating 1500). -/
def sampleProb : CatProblem :=
  ⟨some "1", none, "A", some ["dp"], some 1500, some "Sample"⟩

/-- C3 counterexample: `RUNTIME_ERROR` is outside the spec's closed list,
yet a runtime-error contest submission on a not-yet-solved indexed problem
does set `failedContest` in the aggregate — so the spec's list is not the
exact set of flag-setting verdicts. -/
theorem c3_counterexample :
    "RUNTIME_ERROR" ∉ specQualifyingFailureVerdicts ∧
    ((aggregate [⟨some sampleProb, "RUNTIME_ERROR", some "1"⟩]
        ⟨[sampleProb]⟩).status "1-A").failedContest = true ∧
    ((aggregate [⟨some sampleProb, "RUNTIME_ERROR", some "1"⟩]
        ⟨[sampleProb]⟩).status "1-A").solved = false := by
  refine ⟨by decide, by decide, by decide⟩

/-- C3 amended: the set of flag-setting verdicts is the spec's twelve plus
`RUNTIME_ERROR` (exactly the code's `contestFailVerdicts`); on an indexed,
not-yet-solved problem, a non-accepted verdict sets `failedContest`
(contest submission) or `failedPractice` (practice submission) exactly
when it lies in that set. -/
theorem c3_amended (idx : String → Bool) (st : ClassState)
    (sub : Submission) (pr : CatProblem) (hpr : sub.problem = some pr)
    (hidx : idx (probKey pr) = true)
    (hns : (st.status (probKey pr)).solved = false)
    (hv : sub.verdict ≠ "OK") :
    (∀ v, v ∈ contestFailVerdicts ↔
      (v ∈ specQualifyingFailureVerdicts ∨ v = "RUNTIME_ERROR")) ∧
    ((classifyStep idx st sub).status (probKey pr)).failedContest =
      ((st.status (probKey pr)).failedContest ||
        (contestFailVerdicts.contains sub.verdict && sub.contestId.isSome)) ∧
    ((classifyStep idx st sub).status (probKey pr)).failedPractice =
      ((st.status (probKey pr)).failedPractice ||
        (contestFailVerdicts.contains sub.verdict &&
          !sub.contestId.isSome)) := by
  have hok : isOkFor idx (probKey pr) sub = false := by
    simp [isOkFor, hpr, hv]
  obtain ⟨h1, h2⟩ := classifyStep_failed idx st sub (probKey pr) hok
  refine ⟨?_, ?_, ?_⟩
  · intro v
    simp only [contestFailVerdicts, specQualifyingFailureVerdicts,
      List.mem_cons, List.not_mem_nil, or_false]
    tauto
  · rw [h1, hns]
    simp [isFailCFor, hpr, hidx]
  · rw [h2, hns]
    simp [isFailPFor, hpr, hidx]

/-- C3 amended, witness: the amended characterization applied at a
concrete runtime-error contest submission on a fresh state. -/
theorem c3_amended_witness :
    ((classifyStep (fun k => decide (k = "1-A")) classInit
        ⟨some sampleProb, "RUNTIME_ERROR", some "1"⟩).status
        (probKey sampleProb)).failedContest =
      ((classInit.status (probKey sampleProb)).failedContest ||
        (contestFailVerdicts.contains "RUNTIME_ERROR" &&
          (some "1" : Option String).isSome)) :=
  (c3_amended (fun k => decide (k = "1-A")) classInit
    ⟨some sampleProb, "RUNTIME_ERROR", some "1"⟩ sampleProb rfl (by decide) rfl
    (by decide)).2.1

/-! ## Claim C7 — classification monotonicity -/

/-- C7: once a submission list makes a problem solved, classifying any
extension of that list (appended submissions in any order) still yields
`solved = true`, and both failure flags are exactly what they were — in
particular no failure flag that was false when `solved` became true is
ever set by an appended submission. -/
theorem c7_monotonicity (idx : String → Bool) (subs ext : List Submission)
    (k : String) (h : ((classify idx subs).status k).solved = true) :
    ((classify idx (subs ++ ext)).status k).solved = true ∧
    ((classify idx (subs ++ ext)).status k).failedContest =
      ((classify idx subs).status k).failedContest ∧
    ((classify idx (subs ++ ext)).status k).failedPractice =
      ((classify idx subs).status k).failedPractice := by
  have heq : (classify idx (subs ++ ext)).status k =
      (classify idx subs).status k := by
    rw [classify, List.foldl_append]
    exact classify_fold_solved_frozen idx ext _ k h
  rw [heq]
  exact ⟨h, rfl, rfl⟩

/-- A one-problem catalog and submissions used by concrete checks of C7. -/
def sampleIdx : String → Bool := fun k => decide (k = "1-A")

def sampleOk : Submission := ⟨some sampleProb, "OK", some "1"⟩

def sampleWa : Submission := ⟨some sampleProb, "WRONG_ANSWER", some "1"⟩

/-- C7 witness: the monotonicity theorem applied to a concrete solved list
extended by a failing submission. -/
theorem c7_witness :
    ((classify sampleIdx ([sampleOk] ++ [sampleWa])).status "1-A").solved = true ∧
    ((classify sampleIdx ([sampleOk] ++ [sampleWa])).status "1-A").failedContest =
      ((classify sampleIdx [sampleOk]).status "1-A").failedContest ∧
    ((classify sampleIdx ([sampleOk] ++ [sampleWa])).status "1-A").failedPractice =
      ((classify sampleIdx [sampleOk]).status "1-A").failedPractice :=
  c7_monotonicity sampleIdx [sampleOk] [sampleWa] "1-A" (by decide)

/-! ## Claim C2 — order-independence of the classification fold -/

theorem classify_perm (idx : String → Bool) (l1 l2 : List Submission)
    (h : l1.Perm l2) (k : String) :
    ((classify idx l1).status k).solved =
      ((classify idx l2).status k).solved ∧
    (classify idx l1).origin k = (classify idx l2).origin k ∧
    (((classify idx l1).status k).failedContest &&
        !((classify idx l1).status k).solved) =
      (((classify idx l2).status k).failedContest &&
        !((classify idx l2).status k).solved) ∧
    (((classify idx l1).status k).failedPractice &&
        !((classify idx l1).status k).solved) =
      (((classify idx l2).status k).failedPractice &&
        !((classify idx l2).status k).solved) := by
  have hs1 : ((classify idx l1).status k).solved = l1.any (isOkFor idx k) := by
    rw [classify, classify_fold_solved]
    simp [classInit]
  have hs2 : ((classify idx l2).status k).solved = l2.any (isOkFor idx k) := by
    rw [classify, classify_fold_solved]
    simp [classInit]
  have hany := any_perm h (isOkFor idx k)
  refine ⟨by rw [hs1, hs2, hany], ?_, ?_, ?_⟩
  · rw [classify, classify, classify_fold_origin, classify_fold_origin,
      any_perm h (fun s => isOkFor idx k s && s.contestId.isSome),
      any_perm h (fun s => isOkFor idx k s && !s.contestId.isSome)]
  · by_cases hsolved : l1.any (isOkFor idx k) = true
    · have e1 : ((classify idx l1).status k).solved = true :=
        hs1.trans hsolved
      have e2 : ((classify idx l2).status k).solved = true :=
        hs2.trans (hany ▸ hsolved)
      simp [e1, e2]
    · have hno1 : l1.any (isOkFor idx k) = false :=
        Bool.eq_false_iff.mpr hsolved
      have hno2 : l2.any (isOkFor idx k) = false := hany ▸ hno1
      have hf1 := (classify_fold_failed idx l1 classInit k rfl hno1).1
      have hf2 := (classify_fold_failed idx l2 classInit k rfl hno2).1
      simp only [classify] at hs1 hs2 ⊢
      rw [hf1, hf2, hs1, hs2, hno1, hno2,
        any_perm h (isFailCFor idx k)]
  · by_cases hsolved : l1.any (isOkFor idx k) = true
    · have e1 : ((classify idx l1).status k).solved = true :=
        hs1.trans hsolved
      have e2 : ((classify idx l2).status k).solved = true :=
        hs2.trans (hany ▸ hsolved)
      simp [e1, e2]
    · have hno1 : l1.any (isOkFor idx k) = false :=
        Bool.eq_false_iff.mpr hsolved
      have hno2 : l2.any (isOkFor idx k) = false := hany ▸ hno1
      have hf1 := (classify_fold_failed idx l1 classInit k rfl hno1).2
      have hf2 := (classify_fold_failed idx l2 classInit k rfl hno2).2
      simp only [classify] at hs1 hs2 ⊢
      rw [hf1, hf2, hs1, hs2, hno1, hno2,
        any_perm h (isFailPFor idx k)]

/-- C2 counterexample: the two-element lists [wrong-answer, accepted] and
[accepted, wrong-answer] are permutations of each other, yet the
classification fold of `aggregate` leaves different final `failedContest`
values in `perProblemStatus` — the raw per-problem state is not
order-independent. -/
theorem c2_counterexample :
    [sampleWa, sampleOk].Perm [sampleOk, sampleWa] ∧
    ((aggregate [sampleWa, sampleOk] ⟨[sampleProb]⟩).status "1-A").failedContest
      = true ∧
    ((aggregate [sampleOk, sampleWa] ⟨[sampleProb]⟩).status "1-A").failedContest
      = false :=
  ⟨List.Perm.swap sampleOk sampleWa [], by decide, by decide⟩

/-- C2 amended: over any permutation of the submission list, `aggregate`'s
classification fold yields the same `solved` and the same origin flags at
every problem key, and the same solved-masked failure flags
(`failedX && !solved`, the combination every consumer reads); the raw
`failedContest`/`failedPractice` bits themselves may differ between
permutations. -/
theorem c2_amended (subs1 subs2 : List Submission) (ps : Problemset)
    (h : subs1.Perm subs2) (k : String) :
    ((aggregate subs1 ps).status k).solved =
      ((aggregate subs2 ps).status k).solved ∧
    (aggregate subs1 ps).origin k = (aggregate subs2 ps).origin k ∧
    (((aggregate subs1 ps).status k).failedContest &&
        !((aggregate subs1 ps).status k).solved) =
      (((aggregate subs2 ps).status k).failedContest &&
        !((aggregate subs2 ps).status k).solved) ∧
    (((aggregate subs1 ps).status k).failedPractice &&
        !((aggregate subs1 ps).status k).solved) =
      (((aggregate subs2 ps).status k).failedPractice &&
        !((aggregate subs2 ps).status k).solved) := by
  have e1 : (aggregate subs1 ps).status =
      (classify (fun q => (lookupA (buildMetaList ps.problems) q).isSome)
        subs1).status := rfl
  have e2 : (aggregate subs2 ps).status =
      (classify (fun q => (lookupA (buildMetaList ps.problems) q).isSome)
        subs2).status := rfl
  have e3 : (aggregate subs1 ps).origin =
      (classify (fun q => (lookupA (buildMetaList ps.problems) q).isSome)
        subs1).origin := rfl
  have e4 : (aggregate subs2 ps).origin =
      (classify (fun q => (lookupA (buildMetaList ps.problems) q).isSome)
        subs2).origin := rfl
  rw [e1, e2, e3, e4]
  exact classify_perm _ subs1 subs2 h k

/-- C2 amended, witness: the amended order-independence applied to the
concrete permuted pair of the counterexample. -/
theorem c2_amended_witness :
    ((aggregate [sampleWa, sampleOk] ⟨[sampleProb]⟩).status "1-A").solved =
      ((aggregate [sampleOk, sampleWa] ⟨[sampleProb]⟩).status "1-A").solved ∧
    (aggregate [sampleWa, sampleOk] ⟨[sampleProb]⟩).origin "1-A" =
      (aggregate [sampleOk, sampleWa] ⟨[sampleProb]⟩).origin "1-A" ∧
    (((aggregate [sampleWa, sampleOk] ⟨[sampleProb]⟩).status "1-A").failedContest &&
        !((aggregate [sampleWa, sampleOk] ⟨[sampleProb]⟩).status "1-A").solved) =
      (((aggregate [sampleOk, sampleWa] ⟨[sampleProb]⟩).status "1-A").failedContest &&
        !((aggregate [sampleOk, sampleWa] ⟨[sampleProb]⟩).status "1-A").solved) ∧
    (((aggregate [sampleWa, sampleOk] ⟨[sampleProb]⟩).status "1-A").failedPractice &&
        !((aggregate [sampleWa, sampleOk] ⟨[sampleProb]⟩).status "1-A").solved) =
      (((aggregate [sampleOk, sampleWa] ⟨[sampleProb]⟩).status "1-A").failedPractice &&
        !((aggregate [sampleOk, sampleWa] ⟨[sampleProb]⟩).status "1-A").solved) :=
  c2_amended [sampleWa, sampleOk] [sampleOk, sampleWa] ⟨[sampleProb]⟩
    (List.Perm.swap sampleOk sampleWa []) "1-A"

/-! ## Claim C9 — per-tag split additivity -/

/-- C9: in every aggregate, each tag stat satisfies
`solvedContest + solvedPractice = solved`: every solved problem bumps
exactly one of the two counters (contest branch first, else practice),
and a problem classified solved always carries at least one origin flag. -/
theorem c9_split_additivity (subs : List Submission) (ps : Problemset) :
    ∀ stat ∈ (aggregate subs ps).tagArray,
      stat.solvedContest + stat.solvedPractice = stat.solved := by
  intro stat hstat
  rw [aggregate_tagArray_mem] at hstat
  obtain ⟨t, ht, rfl⟩ := hstat
  obtain ⟨-, hsolved, hsc, hsp, -⟩ :=
    postStat_preserves (tagRatingsFun (buildMetaList ps.problems))
      ((tagStatsFun
          (classify (fun k => (lookupA (buildMetaList ps.problems) k).isSome)
            subs)
          (buildMetaList ps.problems) t).getD (statInit t))
  rw [hsc, hsp, hsolved]
  have hP := tagStatsFun_inv
    (classify (fun k => (lookupA (buildMetaList ps.problems) k).isSome) subs)
    (buildMetaList ps.problems)
    (fun _ s => s.solvedContest + s.solvedPractice = s.solved)
    (fun _ => by simp [statInit])
    (fun k m t' s hs =>
      applyEntry_split_sum _ k m s
        (fun hsol => classify_solved_imp_origin _ subs k hsol) hs)
  cases hbase : tagStatsFun
      (classify (fun k => (lookupA (buildMetaList ps.problems) k).isSome) subs)
      (buildMetaList ps.problems) t with
  | none => simp [statInit]
  | some s => simpa using hP t s hbase

/-- C9 witness: the additivity applied to the stat produced by one
accepted contest submission on the sample catalog. -/
theorem c9_witness :
    ((aggregate [sampleOk] ⟨[sampleProb]⟩).tagArray.head!).solvedContest +
      ((aggregate [sampleOk] ⟨[sampleProb]⟩).tagArray.head!).solvedPractice =
      ((aggregate [sampleOk] ⟨[sampleProb]⟩).tagArray.head!).solved :=
  c9_split_additivity [sampleOk] ⟨[sampleProb]⟩ _
    (List.head!_mem_self (by decide))

/-! ## Claim C8 — next-target difficulty -/

theorem postStat_next (tra : String → Option (List Nat)) (s : TagStat) :
    (postStat tra s).nextTargetDifficulty =
      match s.maxSolved with
      | none => s.nextTargetDifficulty
      | some mx =>
        match tra s.tag with
        | none => s.nextTargetDifficulty
        | some allR =>
          match (sortAsc allR).find? (fun r => mx < r) with
          | none => s.nextTargetDifficulty
          | some r => some r := by
  simp only [postStat]
  split <;> (try split) <;> (try split) <;> simp_all

/-- Membership in the rated-ratings set of a tag, read off the problem
index built from the catalog (`tagRatingsAll` holds exactly these). -/
def ratedRating (ps : Problemset) (t : String) (r : Nat) : Prop :=
  ∃ km ∈ buildMetaList ps.problems, t ∈ km.2.tags ∧
    isRated km.2.rating = true ∧ ratingVal km.2.rating = r

/-- C8: after aggregation, a tag's `nextTargetDifficulty` is the least
element of the tag's rated-ratings set strictly above `maxSolved`; it is
null when `maxSolved` is null or when no rating exceeds it. -/
theorem c8_next_target (subs : List Submission) (ps : Problemset) :
    ∀ stat ∈ (aggregate subs ps).tagArray,
      (stat.maxSolved = none → stat.nextTargetDifficulty = none) ∧
      (∀ mx, stat.maxSolved = some mx →
        ((stat.nextTargetDifficulty = none ↔
           ¬ ∃ r, ratedRating ps stat.tag r ∧ mx < r) ∧
         (∀ n, stat.nextTargetDifficulty = some n →
           ratedRating ps stat.tag n ∧ mx < n ∧
           ∀ r, ratedRating ps stat.tag r → mx < r → n ≤ r))) := by
  intro stat hstat
  rw [aggregate_tagArray_mem] at hstat
  obtain ⟨t, ht, rfl⟩ := hstat
  obtain ⟨hbtag, hbnext⟩ := baseStat_tag_next
    (classify (fun k => (lookupA (buildMetaList ps.problems) k).isSome) subs)
    (buildMetaList ps.problems) t
  set base := (tagStatsFun
    (classify (fun k => (lookupA (buildMetaList ps.problems) k).isSome) subs)
    (buildMetaList ps.problems) t).getD (statInit t) with hbasedef
  set tra := tagRatingsFun (buildMetaList ps.problems) with htradef
  have hmaxpres := (postStat_preserves tra base).2.2.2.2.2.1
  have htagpres := (postStat_preserves tra base).1
  have hrr : ∀ r, ratedRating ps t r ↔ r ∈ (tra t).getD [] := by
    intro r
    exact (tagRatingsFun_mem (buildMetaList ps.problems) t r).symm
  have htageq : (postStat tra base).tag = t := htagpres.trans hbtag
  constructor
  · intro hmx
    rw [hmaxpres] at hmx
    rw [postStat_next]
    simp only [hmx, hbnext]
  · intro mx hmx
    rw [hmaxpres] at hmx
    have hnextval : (postStat tra base).nextTargetDifficulty =
        match tra t with
        | none => none
        | some allR =>
          match (sortAsc allR).find? (fun r => mx < r) with
          | none => none
          | some r => some r := by
      rw [postStat_next]
      simp only [hmx, hbtag, hbnext]
    rw [htageq]
    cases htr : tra t with
    | none =>
      simp only [htr] at hnextval
      refine ⟨?_, ?_⟩
      · rw [hnextval]
        simp only [true_iff]
        rintro ⟨r, hr, -⟩
        rw [hrr r, htr, Option.getD_none] at hr
        exact absurd hr (List.not_mem_nil r)
      · intro n hn
        rw [hnextval] at hn
        cases hn
    | some allR =>
      simp only [htr] at hnextval
      cases hfind : (sortAsc allR).find? (fun r => mx < r) with
      | none =>
        simp only [hfind] at hnextval
        have hnone := (find_sorted_least (sortAsc allR) mx
          (sorted_sortAsc allR)).2 hfind
        refine ⟨?_, ?_⟩
        · rw [hnextval]
          simp only [true_iff]
          rintro ⟨r, hr, hlt⟩
          rw [hrr r, htr, Option.getD_some] at hr
          exact hnone r ((mem_sortAsc r allR).mpr hr) hlt
        · intro n hn
          rw [hnextval] at hn
          cases hn
      | some n =>
        simp only [hfind] at hnextval
        obtain ⟨hlt, hmem, hleast⟩ := (find_sorted_least (sortAsc allR) mx
          (sorted_sortAsc allR)).1 n hfind
        have hnrr : ratedRating ps t n := by
          rw [hrr n, htr, Option.getD_some]
          exact (mem_sortAsc n allR).mp hmem
        refine ⟨?_, ?_⟩
        · rw [hnextval]
          constructor
          · intro h; cases h
          · intro h
            exact absurd ⟨n, hnrr, hlt⟩ h
        · intro n' hn'
          rw [hnextval] at hn'
          have heq : n' = n := by simpa using hn'.symm
          subst heq
          refine ⟨hnrr, hlt, ?_⟩
          intro r hr hmxr
          rw [hrr r, htr, Option.getD_some] at hr
          exact hleast r ((mem_sortAsc r allR).mpr hr) hmxr

/-- C8 witness: the characterization applied to the single-tag sample
aggregate (maxSolved 1500, no higher rating available, so the next target
is null). -/
theorem c8_witness :
    ((aggregate [sampleOk] ⟨[sampleProb]⟩).tagArray.head!.maxSolved = none →
      (aggregate [sampleOk] ⟨[sampleProb]⟩).tagArray.head!.nextTargetDifficulty
        = none) ∧
    (∀ mx,
      (aggregate [sampleOk] ⟨[sampleProb]⟩).tagArray.head!.maxSolved =
        some mx →
      (((aggregate [sampleOk]
          ⟨[sampleProb]⟩).tagArray.head!.nextTargetDifficulty = none ↔
         ¬ ∃ r, ratedRating ⟨[sampleProb]⟩
           ((aggregate [sampleOk] ⟨[sampleProb]⟩).tagArray.head!.tag) r ∧
           mx < r) ∧
       (∀ n,
         (aggregate [sampleOk]
           ⟨[sampleProb]⟩).tagArray.head!.nextTargetDifficulty = some n →
         ratedRating ⟨[sampleProb]⟩
           ((aggregate [sampleOk] ⟨[sampleProb]⟩).tagArray.head!.tag) n ∧
         mx < n ∧
         ∀ r, ratedRating ⟨[sampleProb]⟩
           ((aggregate [sampleOk] ⟨[sampleProb]⟩).tagArray.head!.tag) r →
           mx < r → n ≤ r))) :=
  c8_next_target [sampleOk] ⟨[sampleProb]⟩ _ (List.head!_mem_self (by decide))

/-! ## Claim C5 — intersection-engine correctness -/

/-- C5: for every non-empty tag list over any aggregate view (live or
rehydrated), `buildIntersectionBuckets` is the shared §4.5 bucket builder
applied to exactly the keys common to every listed tag's problem set; a
tag without a problem set, or an empty intersection, yields the empty
bucket map. -/
theorem c5_intersection (v : AggView) (tags : List String)
    (hne : tags ≠ []) :
    ((∃ t ∈ tags, v.perTagProblemList t = none) →
      buildIntersectionBuckets tags v = []) ∧
    ((∀ t ∈ tags, (v.perTagProblemList t).isSome = true) →
      ∃ i, buildIntersectionBuckets tags v = buildBuckets v i ∧
        (∀ k, k ∈ i ↔ ∀ t ∈ tags, ∀ s,
          v.perTagProblemList t = some s → k ∈ s) ∧
        ((¬ ∃ k, ∀ t ∈ tags, ∀ s,
            v.perTagProblemList t = some s → k ∈ s) →
          buildIntersectionBuckets tags v = [])) := by
  constructor
  · intro hmiss
    rw [buildIntersectionBuckets, interFold_missing v tags none hmiss]
    simp
  · intro hall
    cases tags with
    | nil => exact absurd rfl hne
    | cons t0 rest =>
      have h0 := hall t0 (List.mem_cons_self _ _)
      cases hp0 : v.perTagProblemList t0 with
      | none => rw [hp0] at h0; cases h0
      | some s0 =>
        have hfold : interFold v none (t0 :: rest) =
            if s0.isEmpty then some s0
            else interFold v (some s0) rest := by
          simp only [interFold, hp0]
        by_cases hs0 : s0.isEmpty
        · have hs0' : s0 = [] := List.isEmpty_iff.mp hs0
          have hresult : buildIntersectionBuckets (t0 :: rest) v = [] := by
            rw [buildIntersectionBuckets, hfold, if_pos hs0, hs0']
            simp
          refine ⟨[], by rw [hresult]; rfl, fun k => ?_, fun _ => hresult⟩
          constructor
          · intro hk
            exact absurd hk (List.not_mem_nil k)
          · intro hk
            have : k ∈ s0 := hk t0 (List.mem_cons_self _ _) s0 hp0
            rw [hs0'] at this
            exact absurd this (List.not_mem_nil k)
        · obtain ⟨j, hj, hchar⟩ := interFold_all_present v rest s0
            (fun t' ht' => hall t' (List.mem_cons_of_mem _ ht'))
          have hfold' : interFold v none (t0 :: rest) = some j := by
            rw [hfold, if_neg hs0, hj]
          have hchar' : ∀ k, k ∈ j ↔ ∀ t ∈ t0 :: rest, ∀ s,
              v.perTagProblemList t = some s → k ∈ s := by
            intro k
            rw [hchar k]
            constructor
            · rintro ⟨h1, h2⟩
              intro t' ht' s' hs'
              rcases List.mem_cons.mp ht' with rfl | hmem
              · rw [hp0] at hs'
                cases hs'
                exact h1
              · exact h2 t' hmem s' hs'
            · intro h
              exact ⟨h t0 (List.mem_cons_self _ _) s0 hp0,
                fun t' ht' s' hs' => h t' (List.mem_cons_of_mem _ ht') s' hs'⟩
          refine ⟨j, ?_, hchar', ?_⟩
          · rw [buildIntersectionBuckets, hfold']
            show (if j.isEmpty = true then [] else buildBuckets v j) =
              buildBuckets v j
            by_cases hj0 : j.isEmpty
            · rw [if_pos hj0, List.isEmpty_iff.mp hj0]
              rfl
            · rw [if_neg hj0]
          · intro hnone
            have hjnil : j = [] := by
              rw [List.eq_nil_iff_forall_not_mem]
              intro k hk
              exact hnone ⟨k, (hchar' k).mp hk⟩
            rw [buildIntersectionBuckets, hfold', hjnil]
            rfl

/-- A small concrete aggregate view with one problem shared by two tags,
used by the concrete checks of C5. -/
def c5view : AggView :=
  ⟨fun k => if k = "1-A" then some ⟨["dp", "math"], some 1500, "P"⟩ else none,
   fun _ => default, fun _ => default,
   fun t => if t = "dp" ∨ t = "math" then some ["1-A"] else none⟩

/-- C5 witness: the intersection characterization applied to the two-tag
concrete view. -/
theorem c5_witness :
    ∃ i, buildIntersectionBuckets ["dp", "math"] c5view =
        buildBuckets c5view i ∧
      (∀ k, k ∈ i ↔ ∀ t ∈ ["dp", "math"], ∀ s,
        c5view.perTagProblemList t = some s → k ∈ s) ∧
      ((¬ ∃ k, ∀ t ∈ ["dp", "math"], ∀ s,
          c5view.perTagProblemList t = some s → k ∈ s) →
        buildIntersectionBuckets ["dp", "math"] c5view = []) :=
  (c5_intersection c5view ["dp", "math"] (by decide)).2 (by decide)

/-! ## Claim C6 — bucket totals -/

theorem scores_tags_map (l : List TagStat)
    (tra : String → Option (List Nat)) :
    (computeRecommendationScores l tra).map (fun s => s.tag) =
      l.map (fun s => s.tag) := by
  simp only [computeRecommendationScores]
  by_cases hl : l.length = 0
  · rw [if_pos hl]
  · rw [if_neg hl, List.map_map]
    rfl

theorem band_tags_map (a : Agg) :
    (computeFailedDifficultyBand a).tagArray.map (fun s => s.tag) =
      a.tagArray.map (fun s => s.tag) := by
  simp only [computeFailedDifficultyBand, List.map_map]
  refine List.map_congr_left ?_
  intro s _
  simp only [Function.comp_apply]
  cases hp : a.perTagProblemList s.tag <;> rfl

/-- The final (scored, banded) aggregate of the pipeline keeps distinct
tags. -/
theorem fetchPipeline_tags_nodup (handle : String) (now : Int)
    (subs : List Submission) (ps : Problemset) :
    ((fetchPipeline handle now subs ps).1.tagArray.map
      (fun s => s.tag)).Nodup := by
  have h1 : (fetchPipeline handle now subs ps).1.tagArray =
      (computeFailedDifficultyBand
        { aggregate subs ps with tagArray :=
            (computeRecommendationScores (aggregate subs ps).tagArray
              (aggregate subs ps).tagRatingsAll) }).tagArray := rfl
  rw [h1, band_tags_map]
  show ((computeRecommendationScores (aggregate subs ps).tagArray
    (aggregate subs ps).tagRatingsAll).map (fun s => s.tag)).Nodup
  rw [scores_tags_map]
  exact aggregate_tags_nodup subs ps

/-- C6: every difficulty bucket built by `buildAllTagDifficultyBuckets`
satisfies `total = solvedContest + solvedPractice + failedContest +
unsolved`, and the totals of one tag's buckets sum to that tag's
`totalAvailable` (the catalog's tag lists being duplicate-free, per the
spec's `tags: set<string>` data model). -/
theorem c6_bucket_totals (handle : String) (now : Int)
    (subs : List Submission) (ps : Problemset)
    (hcat : ∀ p ∈ ps.problems, (p.tags.getD []).Nodup) :
    ∀ stat ∈ (fetchPipeline handle now subs ps).1.tagArray,
      ∀ bl, lookupA (fetchPipeline handle now subs ps).2.1 stat.tag = some bl →
        (∀ rb ∈ bl, rb.2.total = rb.2.solvedContest + rb.2.solvedPractice +
          rb.2.failedContest + rb.2.unsolved) ∧
        (bl.map fun rb => rb.2.total).sum = stat.totalAvailable := by
  intro stat hstat bl hbl
  have hbuck : (fetchPipeline handle now subs ps).2.1 =
      buildAllTagDifficultyBuckets (fetchPipeline handle now subs ps).1 := rfl
  have hmetaeq : (fetchPipeline handle now subs ps).1.metaList =
      buildMetaList ps.problems := rfl
  have hptpl : (fetchPipeline handle now subs ps).1.perTagProblemList =
      perTagProblemListFun (buildMetaList ps.problems) := rfl
  have hndmeta : ((buildMetaList ps.problems).map Prod.fst).Nodup :=
    buildMetaList_keys_nodup ps.problems
  have hndtags : ∀ km ∈ buildMetaList ps.problems, km.2.tags.Nodup := by
    intro km hkm
    obtain ⟨p, hp, he⟩ := buildMetaList_mem_val ps.problems km hkm
    rw [he]
    exact hcat p hp
  -- trace the stat back to its tag's base record
  have hband := computeFailedDifficultyBand_mem
    { aggregate subs ps with tagArray :=
        (computeRecommendationScores (aggregate subs ps).tagArray
          (aggregate subs ps).tagRatingsAll) }
    stat hstat
  obtain ⟨s2, hs2, htag2, -, -, -, hta2, -⟩ := hband
  obtain ⟨s1, hs1, htag1, -, -, -, hta1, -⟩ :=
    computeRecommendationScores_mem (aggregate subs ps).tagArray
      (aggregate subs ps).tagRatingsAll s2 hs2
  rw [aggregate_tagArray_mem] at hs1
  obtain ⟨t, ht, rfl⟩ := hs1
  have hstag : stat.tag = t := by
    rw [htag2, htag1, (postStat_preserves _ _).1]
    exact (baseStat_tag_next _ _ t).1
  have hstatTA : stat.totalAvailable =
      ((tagStatsFun
        (classify (fun k => (lookupA (buildMetaList ps.problems) k).isSome)
          subs)
        (buildMetaList ps.problems) t).getD (statInit t)).totalAvailable := by
    rw [hta2, hta1, (postStat_preserves _ _).2.2.2.2.1]
  -- the tag's problem-key list
  have hocc : ∃ km ∈ buildMetaList ps.problems, t ∈ km.2.tags :=
    (mem_tagOrderOf _ t).mp ht
  have hkeys : perTagProblemListFun (buildMetaList ps.problems) t =
      some (((buildMetaList ps.problems).filter
        (fun km => decide (t ∈ km.2.tags))).map Prod.fst) := by
    rw [perTagProblemListFun_eq _ hndmeta t, if_pos hocc]
  -- the buckets found for this tag are those of its key list
  have hlook := buildAllTag_lookup (fetchPipeline handle now subs ps).1
    (fetchPipeline_tags_nodup handle now subs ps) stat hstat
    (((buildMetaList ps.problems).filter
      (fun km => decide (t ∈ km.2.tags))).map Prod.fst)
    (by rw [hptpl, hstag]; exact hkeys)
  rw [hbuck, hlook] at hbl
  have hbl' : bl = buildBuckets (fetchPipeline handle now subs ps).1.view
      (((buildMetaList ps.problems).filter
        (fun km => decide (t ∈ km.2.tags))).map Prod.fst) := by
    simpa using hbl.symm
  subst hbl'
  constructor
  · exact buildBuckets_total _ _
  · rw [show ((buildBuckets (fetchPipeline handle now subs ps).1.view
      (((buildMetaList ps.problems).filter
        (fun km => decide (t ∈ km.2.tags))).map Prod.fst)).map
        fun rb => rb.2.total).sum =
      sumTotals (buildBuckets (fetchPipeline handle now subs ps).1.view
        (((buildMetaList ps.problems).filter
          (fun km => decide (t ∈ km.2.tags))).map Prod.fst)) from rfl,
      sumTotals_buildBuckets]
    have hview : (fetchPipeline handle now subs ps).1.view.meta =
        lookupA (buildMetaList ps.problems) := rfl
    have hall : ∀ k ∈ ((buildMetaList ps.problems).filter
        (fun km => decide (t ∈ km.2.tags))).map Prod.fst,
        ((fetchPipeline handle now subs ps).1.view.meta k).isSome = true := by
      intro k hk
      rcases List.mem_map.mp hk with ⟨km, hkm, rfl⟩
      have hkm' : km ∈ buildMetaList ps.problems :=
        List.mem_of_mem_filter hkm
      rw [hview, show km.1 = (km.1, km.2).1 from rfl]
      rw [mem_lookupA hndmeta (by simpa using hkm')]
      rfl
    rw [List.countP_eq_length.mpr hall, List.length_map,
      ← List.countP_eq_length_filter, hstatTA,
      ← tagStatsFun_totalAvailable _ _ hndtags t]
    cases hb : tagStatsFun
        (classify (fun k => (lookupA (buildMetaList ps.problems) k).isSome)
          subs)
        (buildMetaList ps.problems) t with
    | none =>
      have := (tagStatsFun_isSome
        (classify (fun k => (lookupA (buildMetaList ps.problems) k).isSome)
          subs)
        (buildMetaList ps.problems) t).mpr hocc
      rw [hb] at this
      cases this
    | some s => simp [optTA]

/-- C6 witness: the bucket-totals theorem applied to the sample pipeline
(one solved rated problem, one bucket at rating 1500). -/
theorem c6_witness :
    (∀ rb ∈ [((1500 : Nat), (⟨1, 0, 0, 0, 1⟩ : Bucket))],
      rb.2.total = rb.2.solvedContest + rb.2.solvedPractice +
        rb.2.failedContest + rb.2.unsolved) ∧
    (([((1500 : Nat), (⟨1, 0, 0, 0, 1⟩ : Bucket))].map
        fun rb => rb.2.total).sum =
      ((fetchPipeline "h" 0 [sampleOk]
        ⟨[sampleProb]⟩).1.tagArray.head!).totalAvailable) :=
  c6_bucket_totals "h" 0 [sampleOk] ⟨[sampleProb]⟩ (by decide) _
    (List.head!_mem_self (by decide)) [(1500, ⟨1, 0, 0, 0, 1⟩)] (by decide)

/-! ## Claim C1 — snapshot round-trip fidelity -/

/-- C1 counterexample: a problem that failed in contest and was later
solved has `failedContest = true` in the live aggregate, but the snapshot
stores the flag masked by `solved` and rehydration reads it back as
`false` — the round trip is not the identity on the raw status
booleans. -/
theorem c1_counterexample :
    ((fetchPipeline "h" 0 [sampleWa, sampleOk] ⟨[sampleProb]⟩).1.status
      "1-A").failedContest = true ∧
    ((fetchPipeline "h" 0 [sampleWa, sampleOk] ⟨[sampleProb]⟩).1.status
      "1-A").solved = true ∧
    ((renderFromSnapshot
        (fetchPipeline "h" 0 [sampleWa, sampleOk] ⟨[sampleProb]⟩).2.2).status
      "1-A").failedContest = false :=
  ⟨by decide, by decide, by decide⟩

/-- C1 amended: deserializing the snapshot produced by serializing an
aggregate reproduces the whole `tagArray` verbatim (hence, for every tag,
all eleven `TagStat` numeric fields), reproduces every tag's
difficulty-bucket contents, and for every problem key reproduces `solved`
and both origin booleans exactly; the failure booleans come back masked by
`solved` — rehydrated `failedX` equals original `failedX && !solved` — so
they are identical precisely on unsolved problems. -/
theorem c1_roundtrip (handle : String) (now : Int)
    (subs : List Submission) (ps : Problemset) :
    ((renderFromSnapshot (fetchPipeline handle now subs ps).2.2).tagArray =
      (fetchPipeline handle now subs ps).1.tagArray) ∧
    (∀ t r,
      (lookupA (fetchPipeline handle now subs ps).2.2.tags t).map
        (fun o => lookupN (rebuildDiffMapFromSnapshot o.difficultyBuckets) r) =
      (lookupA (fetchPipeline handle now subs ps).2.2.tags t).map
        (fun _ => lookupN
          ((lookupA (fetchPipeline handle now subs ps).2.1 t).getD []) r)) ∧
    (∀ k,
      ((renderFromSnapshot
          (fetchPipeline handle now subs ps).2.2).status k).solved =
        ((fetchPipeline handle now subs ps).1.status k).solved ∧
      (renderFromSnapshot (fetchPipeline handle now subs ps).2.2).origin k =
        (fetchPipeline handle now subs ps).1.origin k ∧
      ((renderFromSnapshot
          (fetchPipeline handle now subs ps).2.2).status k).failedContest =
        (((fetchPipeline handle now subs ps).1.status k).failedContest &&
          !((fetchPipeline handle now subs ps).1.status k).solved) ∧
      ((renderFromSnapshot
          (fetchPipeline handle now subs ps).2.2).status k).failedPractice =
        (((fetchPipeline handle now subs ps).1.status k).failedPractice &&
          !((fetchPipeline handle now subs ps).1.status k).solved)) := by
  refine ⟨?_, ?_, ?_⟩
  · -- tag stats are carried verbatim
    have h1 : (renderFromSnapshot
        (fetchPipeline handle now subs ps).2.2).tagArray =
        ((fetchPipeline handle now subs ps).1.tagArray.map
          (serializeTagStat (fetchPipeline handle now subs ps).2.1)).map
          (fun to' => rehydrateTagStat to'.1 to'.2) := rfl
    rw [h1, List.map_map]
    have h2 : ((fun to' : String × SnapTag =>
        rehydrateTagStat to'.1 to'.2) ∘
        serializeTagStat (fetchPipeline handle now subs ps).2.1) = id :=
      funext fun s =>
        rehydrate_serialize_id (fetchPipeline handle now subs ps).2.1 s
    rw [h2, List.map_id]
  · -- difficulty buckets are carried verbatim
    intro t r
    cases hlook : lookupA (fetchPipeline handle now subs ps).2.2.tags t with
    | none => rfl
    | some o =>
      simp only [Option.map_some']
      rw [rebuildDiffMapFromSnapshot_id]
      have htags : (fetchPipeline handle now subs ps).2.2.tags =
          (fetchPipeline handle now subs ps).1.tagArray.map
            (serializeTagStat (fetchPipeline handle now subs ps).2.1) := rfl
      rw [htags] at hlook
      rcases List.mem_map.mp (lookupA_some_mem hlook) with ⟨stat, hstat, heq⟩
      have htag : stat.tag = t := congrArg Prod.fst heq
      have ho : o = (serializeTagStat
          (fetchPipeline handle now subs ps).2.1 stat).2 :=
        (congrArg Prod.snd heq).symm
      rw [ho]
      have hser : (serializeTagStat
          (fetchPipeline handle now subs ps).2.1 stat).2.difficultyBuckets =
          (lookupA (fetchPipeline handle now subs ps).2.1 stat.tag).getD [] :=
        rfl
      rw [hser, htag]
  · -- per-problem booleans
    intro k
    have hmask : ∀ (c s : Bool), (c = true → s = true) → (c && s) = c := by
      intro c s h
      cases c
      · rfl
      · rw [h rfl]
        rfl
    have hlookup : lookupA (fetchPipeline handle now subs ps).2.2.problems k =
        (lookupA (buildMetaList ps.problems) k).map
          (fun m => serializeProb m
            ((fetchPipeline handle now subs ps).1.status k)
            ((fetchPipeline handle now subs ps).1.origin k)) := by
      have hpr : (fetchPipeline handle now subs ps).2.2.problems =
          (buildMetaList ps.problems).map (fun km =>
            (km.1, serializeProb km.2
              ((fetchPipeline handle now subs ps).1.status km.1)
              ((fetchPipeline handle now subs ps).1.origin km.1))) := rfl
      rw [hpr]
      exact lookupA_map_val (buildMetaList ps.problems)
        (fun q m => serializeProb m
          ((fetchPipeline handle now subs ps).1.status q)
          ((fetchPipeline handle now subs ps).1.origin q)) k
    have hstF : (fetchPipeline handle now subs ps).1.status =
        (classify (fun q => (lookupA (buildMetaList ps.problems) q).isSome)
          subs).status := rfl
    have hogF : (fetchPipeline handle now subs ps).1.origin =
        (classify (fun q => (lookupA (buildMetaList ps.problems) q).isSome)
          subs).origin := rfl
    cases hm : lookupA (buildMetaList ps.problems) k with
    | none =>
      have hsnapk :
          lookupA (fetchPipeline handle now subs ps).2.2.problems k = none := by
        rw [hlookup, hm]
        rfl
      obtain ⟨hst, hog⟩ := classify_not_indexed
        (fun q => (lookupA (buildMetaList ps.problems) q).isSome) subs k
        (by simp [hm])
      have hRstatus : (renderFromSnapshot
          (fetchPipeline handle now subs ps).2.2).status k = default := by
        simp only [renderFromSnapshot]
        rw [hsnapk]
      have hRorigin : (renderFromSnapshot
          (fetchPipeline handle now subs ps).2.2).origin k = default := by
        simp only [renderFromSnapshot]
        rw [hsnapk]
      rw [hRstatus, hRorigin, hstF, hogF, hst, hog]
      refine ⟨rfl, rfl, rfl, rfl⟩
    | some m =>
      have hsnapk :
          lookupA (fetchPipeline handle now subs ps).2.2.problems k =
            some (serializeProb m
              ((fetchPipeline handle now subs ps).1.status k)
              ((fetchPipeline handle now subs ps).1.origin k)) := by
        rw [hlookup, hm]
        rfl
      have hRstatus : (renderFromSnapshot
          (fetchPipeline handle now subs ps).2.2).status k =
          ⟨((fetchPipeline handle now subs ps).1.status k).solved,
           ((fetchPipeline handle now subs ps).1.status k).failedContest &&
             !((fetchPipeline handle now subs ps).1.status k).solved,
           ((fetchPipeline handle now subs ps).1.status k).failedPractice &&
             !((fetchPipeline handle now subs ps).1.status k).solved⟩ := by
        simp only [renderFromSnapshot]
        rw [hsnapk]
        rfl
      have hRorigin : (renderFromSnapshot
          (fetchPipeline handle now subs ps).2.2).origin k =
          ⟨((fetchPipeline handle now subs ps).1.origin k).contest &&
             ((fetchPipeline handle now subs ps).1.status k).solved,
           ((fetchPipeline handle now subs ps).1.origin k).practice &&
             ((fetchPipeline handle now subs ps).1.status k).solved⟩ := by
        simp only [renderFromSnapshot]
        rw [hsnapk]
        rfl
      refine ⟨by rw [hRstatus], ?_, by rw [hRstatus], by rw [hRstatus]⟩
      rw [hRorigin, hstF, hogF,
        hmask _ _ (classify_origin_imp_solved _ subs k).1,
        hmask _ _ (classify_origin_imp_solved _ subs k).2]

/-! ## Claim C10 — rating normalization -/

/-- C10: a catalog rating that is missing, null or 0 is stored as null by
the problem index; an unrated problem never moves `maxSolved`, contributes
nothing to the per-tag rated-ratings set, is skipped by the fail-band
scan, and lands in the rating-0 difficulty bucket. -/
theorem c10_rating_normalization :
    (∀ p : CatProblem, (p.rating = none ∨ p.rating = some 0) →
      (metaOf p).rating = none) ∧
    (∀ (cls : ClassState) (k : String) (m : Meta) (s : TagStat),
      m.rating = none → (applyEntry cls k m s).maxSolved = s.maxSolved) ∧
    (∀ (entries1 entries2 : List (String × Meta)) (k : String) (m : Meta),
      m.rating = none →
      tagRatingsFun (entries1 ++ (k, m) :: entries2) =
        tagRatingsFun (entries1 ++ entries2)) ∧
    (∀ (metaL : List (String × Meta)) (status : String → Status)
      (p : Option Nat × Option Nat) (key : String) (m : Meta),
      lookupA metaL key = some m → m.rating = none →
      bandStep metaL status p key = p) ∧
    (∀ (v : AggView) (dm : List (Nat × Bucket)) (key : String) (m : Meta),
      v.meta key = some m → m.rating = none →
      bucketStep v dm key =
        bucketUpd dm 0 (bucketContrib (v.status key) (v.origin key))) := by
  refine ⟨?_, ?_, ?_, ?_, ?_⟩
  · intro p hp
    rcases hp with hp | hp <;> simp [metaOf, hp]
  · intro cls k m s hm
    simp only [applyEntry, hm, isRated, Bool.false_eq_true, if_false]
    split_ifs <;> simp
  · intro e1 e2 k m hm
    simp only [tagRatingsFun, List.foldl_append, List.foldl_cons]
    rw [show (fun (f : String → Option (List Nat)) (km : String × Meta) =>
      km.2.tags.foldl
        (fun f' t' =>
          if isRated km.2.rating then
            mapUpd f' t' [] (fun l => setAdd l (ratingVal km.2.rating))
          else f') f) = fun f km => km.2.tags.foldl
        (fun f' t' =>
          if isRated km.2.rating then
            mapUpd f' t' [] (fun l => setAdd l (ratingVal km.2.rating))
          else f') f from rfl]
    have : (m.tags.foldl
        (fun f' t' =>
          if isRated (k, m).2.rating then
            mapUpd f' t' [] (fun l => setAdd l (ratingVal (k, m).2.rating))
          else f')
        (e1.foldl
          (fun f km =>
            km.2.tags.foldl
              (fun f' t' =>
                if isRated km.2.rating then
                  mapUpd f' t' [] (fun l => setAdd l (ratingVal km.2.rating))
                else f') f)
          (fun _ => none))) =
        e1.foldl
          (fun f km =>
            km.2.tags.foldl
              (fun f' t' =>
                if isRated km.2.rating then
                  mapUpd f' t' [] (fun l => setAdd l (ratingVal km.2.rating))
                else f') f)
          (fun _ => none) := by
      simp only [hm, isRated, Bool.false_eq_true, if_false]
      exact foldl_const _ _
    rw [this]
  · intro metaL status p key m hl hm
    simp [bandStep, hl, hm, isRated]
  · intro v dm key m hv hm
    simp [bucketStep, hv, hm, ratingKey]

/-- A metadata record with a null rating used by concrete checks of C10. -/
def c10meta : Meta := ⟨["dp"], none, "Unrated"⟩

/-- C10 witness: the normalization facts applied at concrete unrated
inputs (catalog rating 0; an unrated meta hitting each aggregation
site). -/
theorem c10_witness :
    (metaOf ⟨some "2", none, "B", some ["dp"], some 0, some "Z"⟩).rating =
      none ∧
    (applyEntry classInit "2-B" c10meta (statInit "dp")).maxSolved =
      (statInit "dp").maxSolved ∧
    tagRatingsFun ([] ++ ("2-B", c10meta) :: []) = tagRatingsFun ([] ++ []) ∧
    bandStep [("2-B", c10meta)] (fun _ => default) (none, none) "2-B" =
      (none, none) ∧
    bucketStep
      ⟨fun k => if k = "2-B" then some c10meta else none,
       fun _ => default, fun _ => default, fun _ => none⟩ [] "2-B" =
      bucketUpd [] 0
        (bucketContrib
          ((⟨fun k => if k = "2-B" then some c10meta else none,
             fun _ => default, fun _ => default, fun _ => none⟩ :
             AggView).status "2-B")
          ((⟨fun k => if k = "2-B" then some c10meta else none,
             fun _ => default, fun _ => default, fun _ => none⟩ :
             AggView).origin "2-B")) :=
  ⟨c10_rating_normalization.1 _ (Or.inr rfl),
   c10_rating_normalization.2.1 classInit "2-B" c10meta (statInit "dp") rfl,
   c10_rating_normalization.2.2.1 [] [] "2-B" c10meta rfl,
   c10_rating_normalization.2.2.2.1 [("2-B", c10meta)] (fun _ => default)
     (none, none) "2-B" c10meta (by decide) rfl,
   c10_rating_normalization.2.2.2.2 _ [] "2-B" c10meta (by simp) rfl⟩

end CfTag
